/-
Verification of the local hybrid memory/retrieval engine (MemoryManager v2):
chunker, embedding cache/client, incremental indexer and hybrid searcher.

The definitions below are a shallow embedding of the TypeScript source:
pure functions become Lean functions, the SQLite tables become lists of
record rows, the embedding service and the FTS5 engine become explicit
oracle parameters, and floating-point arithmetic is modelled over ℝ
(store-side vectors, whose numeric content is irrelevant to the indexing
claims, are modelled over ℚ so that everything store-side is decidable).
The content hash (`Bun.hash`) is an explicit function parameter.
-/
import Mathlib

namespace Claw

open scoped List

/-! ### Small string utilities used by the chunker and searcher -/

/-- `buf.join("\n")` on an array of lines. -/
def joinLines (buf : List String) : String :=
  String.intercalate "\n" buf

/-- Helper for `isHeading`: `cs` is the remaining characters, `k` the number
of `#` characters consumed so far (the regex allows one to three). -/
def isHeadingGo : List Char → Nat → Bool
  | [], _ => false
  | c :: rest, k =>
    if c = '#' then
      if k < 3 then isHeadingGo rest (k + 1) else false
    else
      decide (1 ≤ k) && c.isWhitespace

/-- The markdown-heading trigger `/^#{1,3}\s/` of `chunkFile`. -/
def isHeading (s : String) : Bool :=
  isHeadingGo s.data 0

/-- Helper for `splitLines`: split the remaining characters at every
newline, `acc` holding the current line reversed. -/
def splitNlAux : List Char → List Char → List String
  | [], acc => [String.mk acc.reverse]
  | c :: cs, acc =>
    if c = '\n' then String.mk acc.reverse :: splitNlAux cs []
    else splitNlAux cs (c :: acc)

/-- JavaScript `content.split("\n")`. -/
def splitLines (s : String) : List String :=
  splitNlAux s.data []

/-- The length of JavaScript `s.trim()`: the character count after
dropping leading and trailing whitespace. -/
def trimmedLen (s : String) : Nat :=
  ((s.data.dropWhile Char.isWhitespace).reverse.dropWhile Char.isWhitespace).length

/-- `needle` is a prefix of `hay` (character lists). -/
def listPrefixEq : List Char → List Char → Bool
  | [], _ => true
  | _ :: _, [] => false
  | a :: as, b :: bs => a == b && listPrefixEq as bs

/-- JavaScript `hay.includes(needle)`: substring containment. -/
def strContains (hay needle : String) : Bool :=
  (List.range (hay.data.length + 1)).any fun i => listPrefixEq needle.data (hay.data.drop i)

/-- The separator class of the naive tokenizer:
`/[\s,，。、！？；：""''（）\[\]{}]+/`. -/
def sepChar (c : Char) : Bool :=
  c.isWhitespace ||
    c ∈ [',', '，', '。', '、', '！', '？', '；', '：', '“', '”', '‘', '’',
         '（', '）', '[', ']', Char.ofNat 123, Char.ofNat 125]

/-- `query.toLowerCase().split(sep).filter((t) => t.length > 1)`. -/
def tokensOf (query : String) : List String :=
  (query.toLower.split (fun c => sepChar c)).filter fun t => 1 < t.length

/-! ### Chunker (`MemoryManager.chunkFile`) -/

/-- One chunk produced by `chunkFile` (before embedding). -/
structure Chunk where
  id : String
  path : String
  text : String
  startLine : Nat
  endLine : Nat
  hash : String
deriving DecidableEq, Repr

/-- `` `${path}:${startLine}-${endLine}` ``. -/
def mkChunkId (path : String) (s e : Nat) : String :=
  path ++ ":" ++ toString s ++ "-" ++ toString e

/-- The mutable state of the chunking loop: already emitted chunks, the
accumulation buffer `buf`, and the current `startLine`. -/
structure ChunkAcc where
  chunks : List Chunk
  buf : List String
  startLine : Nat
deriving DecidableEq, Repr

/-- The inner `pushChunk` closure: emit the buffer as a chunk unless its
trimmed text is shorter than 20 characters, then seed the next buffer with
the last `OVERLAP = 3` lines. -/
def pushChunk (textHash : String → String) (path : String) (acc : ChunkAcc) : ChunkAcc :=
  let text := joinLines acc.buf
  if trimmedLen text < 20 then acc
  else
    let endLine := acc.startLine + acc.buf.length - 1
    let c : Chunk :=
      ⟨mkChunkId path acc.startLine endLine, path, text, acc.startLine, endLine, textHash text⟩
    let keep := acc.buf.drop (acc.buf.length - 3)
    { chunks := acc.chunks ++ [c]
      buf := keep
      startLine := acc.startLine + acc.buf.length - keep.length }

/-- One iteration of the chunking loop over a line: heading trigger, append
the line, then the `MAX_CHARS = 600` size trigger (which needs more than
`OVERLAP + 1 = 4` buffered lines). -/
def chunkStep (textHash : String → String) (path : String) (acc : ChunkAcc) (line : String) :
    ChunkAcc :=
  let acc := if isHeading line ∧ acc.buf ≠ [] then pushChunk textHash path acc else acc
  let acc := { acc with buf := acc.buf ++ [line] }
  if 600 < (joinLines acc.buf).length ∧ 4 < acc.buf.length then pushChunk textHash path acc
  else acc

/-- The trailing chunk flushed after the loop (when the final buffer is
nonempty and its trimmed text is longer than 10 characters). -/
def trailingChunk (textHash : String → String) (path : String) (acc : ChunkAcc) : Chunk :=
  ⟨mkChunkId path acc.startLine (acc.startLine + acc.buf.length - 1), path, joinLines acc.buf,
    acc.startLine, acc.startLine + acc.buf.length - 1, textHash (joinLines acc.buf)⟩

/-- The state of the chunking loop after consuming every line of `content`. -/
def chunkLoop (textHash : String → String) (content path : String) : ChunkAcc :=
  (splitLines content).foldl (chunkStep textHash path) ⟨[], [], 1⟩

/-- `MemoryManager.chunkFile`. -/
def chunkFile (textHash : String → String) (content path : String) : List Chunk :=
  let acc := chunkLoop textHash content path
  if acc.buf ≠ [] ∧ 10 < trimmedLen (joinLines acc.buf) then
    acc.chunks ++ [trailingChunk textHash path acc]
  else acc.chunks

/-! ### Persistent store (`.memory.sqlite` tables as lists of rows) -/

/-- Embedding vectors as stored in the database.  Their numeric content is
irrelevant to the indexing claims, so they are modelled over ℚ to keep the
store decidable. -/
abbrev EmbVec := List ℚ

/-- A row of the `chunks` table. -/
structure ChunkRow where
  id : String
  path : String
  text : String
  startLine : Nat
  endLine : Nat
  embedding : Option EmbVec
  hash : String
deriving DecidableEq, Repr

/-- A row of the `files` table. -/
structure FileRow where
  path : String
  hash : String
  size : Nat
deriving DecidableEq, Repr

/-- A row of the `chunks_fts` FTS5 virtual table. -/
structure FtsRow where
  chunkId : String
  text : String
deriving DecidableEq, Repr

/-- A row of the `embedding_cache` table (primary key `(hash, model)`). -/
structure CacheRow where
  hash : String
  model : String
  embedding : EmbVec
deriving DecidableEq, Repr

/-- The whole persistent store. -/
structure Store where
  chunks : List ChunkRow
  files : List FileRow
  fts : List FtsRow
  cache : List CacheRow
deriving DecidableEq, Repr

/-- Engine configuration: whether an embedding API key is configured, the
embedding model id, and whether the FTS5 virtual table was created. -/
structure EngineConfig where
  apiKeySet : Bool
  model : String
  hasFts5 : Bool
deriving DecidableEq, Repr

/-- `getCachedEmbedding`: `SELECT embedding FROM embedding_cache WHERE hash = ? AND model = ?`. -/
def getCached (cache : List CacheRow) (hash model : String) : Option EmbVec :=
  (cache.find? fun r => r.hash == hash && r.model == model).map (·.embedding)

/-- `cacheEmbedding`: `INSERT OR REPLACE INTO embedding_cache`. -/
def cacheInsert (cache : List CacheRow) (hash model : String) (v : EmbVec) : List CacheRow :=
  (cache.filter fun r => !(r.hash == hash && r.model == model)) ++ [⟨hash, model, v⟩]

/-! ### Embedding client (`MemoryManager.embedOne`) -/

/-- The external embedding service as a deterministic oracle: attempt
number and request text to an optional vector (`none` = that attempt
fails). -/
abbrev Service := Nat → String → Option EmbVec

/-- The retry loop of `embedOne`: attempts `0`, `1`, `2` (`maxRetries = 2`),
returning the vector of the first successful attempt together with the
number of service calls made. -/
def attemptLoop (svc : Service) (req : String) : Option (EmbVec × Nat) :=
  match svc 0 req with
  | some v => some (v, 1)
  | none =>
    match svc 1 req with
    | some v => some (v, 2)
    | none =>
      match svc 2 req with
      | some v => some (v, 3)
      | none => none

/-- Outcome of one `embedOne` call: the returned vector (`none` models the
thrown exception), the resulting cache table, the number of service calls
made and the number of successful service calls. -/
structure EmbedResult where
  result : Option EmbVec
  cache : List CacheRow
  calls : Nat
  succ : Nat
deriving DecidableEq, Repr

/-- `MemoryManager.embedOne`: fail if no API key is configured; return the
cached vector if `(textHash text, model)` is cached; otherwise call the
service with the text truncated to its first 1024 characters
(`text.slice(0, 1024)`), retrying up to twice, and store a successful
result in the cache before returning it. -/
def embedOne (cfg : EngineConfig) (textHash : String → String) (svc : Service)
    (cache : List CacheRow) (text : String) : EmbedResult :=
  if cfg.apiKeySet = false then ⟨none, cache, 0, 0⟩
  else
    match getCached cache (textHash text) cfg.model with
    | some v => ⟨some v, cache, 0, 0⟩
    | none =>
      match attemptLoop svc (text.take 1024) with
      | some (v, n) => ⟨some v, cacheInsert cache (textHash text) cfg.model v, n, 1⟩
      | none => ⟨none, cache, 3, 0⟩

/-- The per-chunk embedding loop of `_indexInner`: look each chunk's hash up
in the cache first, otherwise `embedOne` its text (a failure is recorded as
`none`).  Returns the embeddings in chunk order, the final cache table, and
the total/successful service call counts. -/
def embedChunks (cfg : EngineConfig) (textHash : String → String) (svc : Service)
    (cache : List CacheRow) : List Chunk → List (Option EmbVec) × List CacheRow × Nat × Nat
  | [] => ([], cache, 0, 0)
  | c :: cs =>
    match getCached cache c.hash cfg.model with
    | some v =>
      let r := embedChunks cfg textHash svc cache cs
      (some v :: r.1, r.2.1, r.2.2.1, r.2.2.2)
    | none =>
      let r0 := embedOne cfg textHash svc cache c.text
      let r := embedChunks cfg textHash svc r0.cache cs
      (r0.result :: r.1, r.2.1, r0.calls + r.2.2.1, r0.succ + r.2.2.2)

/-! ### Incremental indexer (`MemoryManager._indexInner`) -/

/-- One file found on disk by `scanFiles`. -/
structure DiskFile where
  content : String
  hash : String
  size : Nat
deriving DecidableEq, Repr

/-- First stored hash for a path (`dbFiles.get(path)`). -/
def lookupFile (files : List FileRow) (p : String) : Option String :=
  (files.find? fun f => f.path == p).map (·.hash)

/-- `diskFiles.get(path)`. -/
def lookupDisk (disk : List (String × DiskFile)) (p : String) : Option DiskFile :=
  (disk.find? fun pf => pf.1 == p).map (·.2)

/-- `MemoryManager.diffFiles`: `changed` = disk paths whose stored hash is
missing or different (in disk order), `deleted` = stored paths no longer on
disk (in stored order). -/
def diffFiles (st : Store) (disk : List (String × DiskFile)) : List String × List String :=
  ((disk.filter fun pf => !(lookupFile st.files pf.1 == some pf.2.hash)).map (·.1),
   ((st.files.filter fun f => !(disk.any fun pf => pf.1 == f.path)).map (·.path)))

/-- Cleanup of one path inside the first transaction: delete that path's
FTS rows (by the ids of its current chunk rows, FTS5 permitting) and then
its chunk rows. -/
def deleteForPath (cfg : EngineConfig) (st : Store) (p : String) : Store :=
  let ids := (st.chunks.filter fun c => c.path == p).map (·.id)
  { st with
    fts := if cfg.hasFts5 then st.fts.filter (fun r => !(ids.contains r.chunkId)) else st.fts
    chunks := st.chunks.filter fun c => !(c.path == p) }

/-- The single upfront cleanup transaction of `_indexInner`: delete chunk
and FTS rows for every changed or deleted path, then delete the file rows
of deleted paths. -/
def cleanupTxn (cfg : EngineConfig) (st : Store) (changed deleted : List String) : Store :=
  let st := (changed ++ deleted).foldl (deleteForPath cfg) st
  { st with files := st.files.filter fun f => !(deleted.contains f.path) }

/-- `INSERT OR REPLACE INTO chunks`: drop any row with the same id, append
the new row. -/
def insertChunkRow (st : Store) (row : ChunkRow) : Store :=
  { st with chunks := (st.chunks.filter fun c => !(c.id == row.id)) ++ [row] }

/-- `INSERT INTO chunks_fts` (a plain insert, only when FTS5 is available). -/
def insertFts (cfg : EngineConfig) (st : Store) (id text : String) : Store :=
  if cfg.hasFts5 then { st with fts := st.fts ++ [⟨id, text⟩] } else st

/-- The chunk row written for a chunk and its embedding outcome. -/
def mkChunkRow (c : Chunk) (e : Option EmbVec) : ChunkRow :=
  ⟨c.id, c.path, c.text, c.startLine, c.endLine, e, c.hash⟩

/-- The per-file write transaction of `_indexInner`: insert every chunk row
with its FTS entry, then upsert the file row. -/
def writeFileTxn (cfg : EngineConfig) (st : Store) (path fhash : String) (fsize : Nat)
    (chunks : List Chunk) (embs : List (Option EmbVec)) : Store :=
  let st := (chunks.zip embs).foldl
    (fun s ce => insertFts cfg (insertChunkRow s (mkChunkRow ce.1 ce.2)) ce.1.id ce.1.text) st
  { st with files := (st.files.filter fun f => !(f.path == path)) ++ [⟨path, fhash, fsize⟩] }

/-- Processing of one changed file: chunk it, embed the chunks through the
cache (the cache writes land in the store), then run the per-file write
transaction. -/
def indexFile (cfg : EngineConfig) (textHash : String → String) (svc : Service)
    (st : Store) (path : String) (f : DiskFile) : Store :=
  let chunks := chunkFile textHash f.content path
  let r := embedChunks cfg textHash svc st.cache chunks
  writeFileTxn cfg { st with cache := r.2.1 } path f.hash f.size chunks r.1

/-- The fold over changed paths of `_indexInner` (a changed path always has
a disk entry; the `none` branch is unreachable). -/
def indexChanged (cfg : EngineConfig) (textHash : String → String) (svc : Service)
    (disk : List (String × DiskFile)) (st : Store) (changed : List String) : Store :=
  changed.foldl
    (fun s p =>
      match lookupDisk disk p with
      | some f => indexFile cfg textHash svc s p f
      | none => s) st

/-- `MemoryManager._indexInner`: final store and returned chunk count.
An empty disk scan returns `0` immediately; an empty diff returns the
current chunk count; otherwise clean up and re-index the changed files. -/
def _indexInner (cfg : EngineConfig) (textHash : String → String) (svc : Service)
    (disk : List (String × DiskFile)) (st : Store) : Store × Nat :=
  if disk.isEmpty then (st, 0)
  else
    let d := diffFiles st disk
    if d.1.isEmpty ∧ d.2.isEmpty then (st, st.chunks.length)
    else
      let st2 := indexChanged cfg textHash svc disk (cleanupTxn cfg st d.1 d.2) d.1
      (st2, st2.chunks.length)

/-! ### Transaction boundaries of one index pass (for the atomicity claim)

`_indexInner` commits its writes in several units: one upfront cleanup
transaction, then, per changed file, the embedding-cache writes (which
happen outside any explicit transaction) and one per-file insert
transaction.  `indexStates` lists the store as visible at each commit
boundary; an interruption of the pass leaves the store at one of these
states. -/

/-- Fold step producing, for one changed path, the store after its cache
writes and the store after its insert transaction. -/
def fileStatesStep (cfg : EngineConfig) (textHash : String → String) (svc : Service)
    (disk : List (String × DiskFile)) (acc : Store × List Store) (p : String) :
    Store × List Store :=
  match lookupDisk disk p with
  | some f =>
    let chunks := chunkFile textHash f.content p
    let r := embedChunks cfg textHash svc acc.1.cache chunks
    let sCache := { acc.1 with cache := r.2.1 }
    let sIns := writeFileTxn cfg sCache p f.hash f.size chunks r.1
    (sIns, acc.2 ++ [sCache, sIns])
  | none => (acc.1, acc.2)

/-- The stores visible at the commit boundaries of one `_indexInner` pass,
starting with the initial store. -/
def indexStates (cfg : EngineConfig) (textHash : String → String) (svc : Service)
    (disk : List (String × DiskFile)) (st : Store) : List Store :=
  if disk.isEmpty then [st]
  else
    let d := diffFiles st disk
    if d.1.isEmpty ∧ d.2.isEmpty then [st]
    else
      let st1 := cleanupTxn cfg st d.1 d.2
      st :: st1 :: (d.1.foldl (fileStatesStep cfg textHash svc disk) (st1, [])).2

/-! ### Hybrid searcher (`MemoryManager.search`)

Floating-point scores are modelled over ℝ.  The FTS5 BM25 results are an
oracle input `ftsRows` (chunk id and rank); an empty `ftsRows` covers every
way `ftsScores` ends up empty in the source (FTS5 unavailable, empty
escaped query, query error, or no matching rows), which is exactly the
`useNaiveKw` condition. -/

/-- A row of the `chunks` table as read by `search`. -/
structure SearchRow where
  id : String
  path : String
  text : String
  startLine : Nat
  endLine : Nat
  embedding : Option (List ℝ)

/-- One search result. -/
structure SearchResult where
  path : String
  text : String
  score : ℝ
  startLine : Nat
  endLine : Nat

/-- `cosineSim`: the source iterates `i` over `a.length`, reading `b[i]`
(out-of-range reads are modelled as `0`), and divides by
`√magA * √magB + 1e-8`. -/
noncomputable def cosineSim (a b : List ℝ) : ℝ :=
  (∑ i ∈ Finset.range a.length, a.getD i 0 * b.getD i 0) /
    (Real.sqrt (∑ i ∈ Finset.range a.length, a.getD i 0 * a.getD i 0) *
      Real.sqrt (∑ i ∈ Finset.range a.length, b.getD i 0 * b.getD i 0) + 1e-8)

/-- The keyword score contributed by the FTS5 results: the last `set` for an
id wins, and a rank `r` is normalized to `1 / (1 + |r|)`. -/
noncomputable def ftsScoreFor (ftsRows : List (String × ℝ)) (id : String) : Option ℝ :=
  (ftsRows.reverse.find? fun r => r.1 == id).map fun r => 1 / (1 + |r.2|)

/-- `vectorScore`: `max(0, cosineSim(queryEmb, emb))` when both vectors
exist, else `0`. -/
noncomputable def vectorScore (queryEmb : Option (List ℝ)) (row : SearchRow) : ℝ :=
  match queryEmb, row.embedding with
  | some q, some e => max 0 (cosineSim q e)
  | _, _ => 0

/-- `keywordScore`: the normalized FTS5 score when present, else — when the
naive fallback is active and there are query tokens — the fraction of query
tokens contained in the chunk text, else `0`. -/
noncomputable def keywordScore (ftsRows : List (String × ℝ)) (queryTokens : List String)
    (row : SearchRow) : ℝ :=
  match ftsScoreFor ftsRows row.id with
  | some s => s
  | none =>
    if ftsRows = [] ∧ queryTokens ≠ [] then
      ((queryTokens.filter fun t => strContains row.text.toLower t).length : ℝ) /
        (queryTokens.length : ℝ)
    else 0

/-- The final blended score of one chunk row. -/
noncomputable def scoreRow (queryEmb : Option (List ℝ)) (ftsRows : List (String × ℝ))
    (queryTokens : List String) (row : SearchRow) : ℝ :=
  match queryEmb with
  | some _ => 0.7 * vectorScore queryEmb row + 0.3 * keywordScore ftsRows queryTokens row
  | none => keywordScore ftsRows queryTokens row

/-- The scored (unfiltered, unsorted) result list of `search`, in
storage-read order.  `queryTokens` are computed only when the naive
fallback is active, as in the source. -/
noncomputable def scoredList (queryEmb : Option (List ℝ)) (ftsRows : List (String × ℝ))
    (query : String) (rows : List SearchRow) : List SearchResult :=
  let queryTokens := if ftsRows = [] then tokensOf query else []
  rows.map fun row =>
    ⟨row.path, row.text, scoreRow queryEmb ftsRows queryTokens row, row.startLine, row.endLine⟩

/-- `MemoryManager.search` after the query embedding and FTS5 oracle steps:
score every stored chunk, filter by `minScore`, stable-sort descending by
score, take the first `topK`. -/
noncomputable def searchModel (queryEmb : Option (List ℝ)) (ftsRows : List (String × ℝ))
    (query : String) (rows : List SearchRow) (topK : Nat) (minScore : ℝ) :
    List SearchResult :=
  if rows.isEmpty then []
  else
    (((scoredList queryEmb ftsRows query rows).filter
        fun r => decide (minScore ≤ r.score)).mergeSort
      fun a b => decide (b.score ≤ a.score)).take topK

/-! ### Score bounds -/

/-- By Cauchy–Schwarz, the numerator of `cosineSim` is at most
`√magA * √magB`, which is strictly below the denominator. -/
lemma cosineSim_le_one (a b : List ℝ) : cosineSim a b ≤ 1 := by
  have hcs := Real.sum_mul_le_sqrt_mul_sqrt (Finset.range a.length)
    (fun i => a.getD i 0) (fun i => b.getD i 0)
  have hA : (∑ i ∈ Finset.range a.length, (a.getD i 0) ^ 2) =
      ∑ i ∈ Finset.range a.length, a.getD i 0 * a.getD i 0 :=
    Finset.sum_congr rfl fun i _ => by ring
  have hB : (∑ i ∈ Finset.range a.length, (b.getD i 0) ^ 2) =
      ∑ i ∈ Finset.range a.length, b.getD i 0 * b.getD i 0 :=
    Finset.sum_congr rfl fun i _ => by ring
  rw [hA, hB] at hcs
  have hnn : 0 ≤ Real.sqrt (∑ i ∈ Finset.range a.length, a.getD i 0 * a.getD i 0) *
      Real.sqrt (∑ i ∈ Finset.range a.length, b.getD i 0 * b.getD i 0) :=
    mul_nonneg (Real.sqrt_nonneg _) (Real.sqrt_nonneg _)
  have hpos : (0:ℝ) < Real.sqrt (∑ i ∈ Finset.range a.length, a.getD i 0 * a.getD i 0) *
      Real.sqrt (∑ i ∈ Finset.range a.length, b.getD i 0 * b.getD i 0) + 1e-8 := by
    have : (0:ℝ) < 1e-8 := by norm_num
    linarith
  rw [cosineSim, div_le_one hpos]
  have : (0:ℝ) < 1e-8 := by norm_num
  linarith

/-- The normalized FTS5 score `1 / (1 + |rank|)` lies in `[0, 1]`. -/
lemma ftsScoreFor_bounds {ftsRows : List (String × ℝ)} {id : String} {v : ℝ}
    (h : ftsScoreFor ftsRows id = some v) : 0 ≤ v ∧ v ≤ 1 := by
  rw [ftsScoreFor] at h
  cases hf : ftsRows.reverse.find? fun r => r.1 == id with
  | none => rw [hf] at h; exact absurd h (by simp)
  | some r =>
    rw [hf] at h
    rw [Option.map_some', Option.some.injEq] at h
    subst h
    have habs : (0:ℝ) ≤ |r.2| := abs_nonneg _
    constructor
    · positivity
    · rw [div_le_one (by linarith)]
      linarith

/-- The keyword score lies in `[0, 1]` in every branch. -/
lemma keywordScore_bounds (ftsRows : List (String × ℝ)) (queryTokens : List String)
    (row : SearchRow) :
    0 ≤ keywordScore ftsRows queryTokens row ∧ keywordScore ftsRows queryTokens row ≤ 1 := by
  rw [keywordScore]
  cases hf : ftsScoreFor ftsRows row.id with
  | some s => exact ftsScoreFor_bounds hf
  | none =>
    by_cases hc : ftsRows = [] ∧ queryTokens ≠ []
    · rw [if_pos hc]
      have hlenpos : 0 < queryTokens.length := List.length_pos.mpr hc.2
      have hlen : ((queryTokens.filter fun t => strContains row.text.toLower t).length : ℝ) ≤
          (queryTokens.length : ℝ) := by
        exact_mod_cast List.length_filter_le _ _
      have hpos : (0:ℝ) < (queryTokens.length : ℝ) := by exact_mod_cast hlenpos
      constructor
      · positivity
      · rw [div_le_one hpos]; exact hlen
    · rw [if_neg hc]; norm_num

/-- The vector score lies in `[0, 1]`. -/
lemma vectorScore_bounds (queryEmb : Option (List ℝ)) (row : SearchRow) :
    0 ≤ vectorScore queryEmb row ∧ vectorScore queryEmb row ≤ 1 := by
  cases queryEmb with
  | none =>
    cases he : row.embedding with
    | none => simp [vectorScore, he]
    | some e => simp [vectorScore, he]
  | some q =>
    cases he : row.embedding with
    | none => simp [vectorScore, he]
    | some e =>
      simp only [vectorScore, he]
      exact ⟨le_max_left _ _, max_le (by norm_num) (cosineSim_le_one q e)⟩

/-- The final blended score lies in `[0, 1]`. -/
lemma scoreRow_bounds (queryEmb : Option (List ℝ)) (ftsRows : List (String × ℝ))
    (queryTokens : List String) (row : SearchRow) :
    0 ≤ scoreRow queryEmb ftsRows queryTokens row ∧
      scoreRow queryEmb ftsRows queryTokens row ≤ 1 := by
  obtain ⟨hv0, hv1⟩ := vectorScore_bounds queryEmb row
  obtain ⟨hk0, hk1⟩ := keywordScore_bounds ftsRows queryTokens row
  cases queryEmb with
  | none => simpa [scoreRow] using ⟨hk0, hk1⟩
  | some q =>
    simp only [scoreRow]
    constructor <;> nlinarith

/-- C1: for every stored chunk and every query, the final search score is
`0.7 * vectorScore + 0.3 * keywordScore` when a query embedding was
obtained and `keywordScore` alone when it was not, where `vectorScore` is
`max (0, cosineSim queryVector chunkVector)` when both vectors exist and
`0` otherwise; and the final score always lies in `[0, 1]`. -/
theorem score_formula_and_bounds
    (queryEmb : Option (List ℝ)) (ftsRows : List (String × ℝ)) (query : String)
    (rows : List SearchRow) (queryTokens : List String) (row : SearchRow) :
    ((scoredList queryEmb ftsRows query rows).map SearchResult.score =
      rows.map (scoreRow queryEmb ftsRows (if ftsRows = [] then tokensOf query else []))) ∧
    (∀ q, queryEmb = some q →
      scoreRow queryEmb ftsRows queryTokens row =
        0.7 * vectorScore queryEmb row + 0.3 * keywordScore ftsRows queryTokens row) ∧
    (queryEmb = none →
      scoreRow queryEmb ftsRows queryTokens row = keywordScore ftsRows queryTokens row) ∧
    (∀ q e, queryEmb = some q → row.embedding = some e →
      vectorScore queryEmb row = max 0 (cosineSim q e)) ∧
    ((queryEmb = none ∨ row.embedding = none) → vectorScore queryEmb row = 0) ∧
    0 ≤ scoreRow queryEmb ftsRows queryTokens row ∧
      scoreRow queryEmb ftsRows queryTokens row ≤ 1 := by
  refine ⟨?_, ?_, ?_, ?_, ?_, scoreRow_bounds queryEmb ftsRows queryTokens row⟩
  · rw [scoredList, List.map_map]; rfl
  · rintro q rfl; rfl
  · rintro rfl; rfl
  · rintro q e rfl he; simp only [vectorScore, he]
  · rintro (rfl | he)
    · cases he : row.embedding <;> simp [vectorScore, he]
    · cases queryEmb <;> simp [vectorScore, he]

/-- Witness for C1 at a concrete row with no query embedding. -/
theorem score_formula_and_bounds_witness :
    scoreRow none [] [] ⟨"c1", "a.md", "text", 1, 1, none⟩ =
      keywordScore [] [] ⟨"c1", "a.md", "text", 1, 1, none⟩ ∧
    0 ≤ scoreRow none [] [] ⟨"c1", "a.md", "text", 1, 1, none⟩ :=
  ⟨(score_formula_and_bounds none [] "q" [] [] ⟨"c1", "a.md", "text", 1, 1, none⟩).2.2.1 rfl,
   (score_formula_and_bounds none [] "q" [] [] ⟨"c1", "a.md", "text", 1, 1, none⟩).2.2.2.2.2.1⟩

/-! ### Search pipeline properties -/

/-- Filtering by a conjunction yields a sublist of filtering by one
conjunct. -/
lemma filter_and_sublist (p q : α → Bool) :
    ∀ l : List α, l.filter (fun a => q a && p a) <+ l.filter q := by
  intro l
  induction l with
  | nil => simp
  | cons x xs ih =>
    by_cases hq : q x
    · by_cases hp : p x
      · simpa [List.filter_cons, hq, hp] using ih.cons₂ x
      · simpa [List.filter_cons, hq, hp] using ih.cons x
    · simpa [List.filter_cons, hq] using ih

/-- The descending-score comparator is transitive. -/
lemma scoreLe_trans (a b c : SearchResult)
    (h1 : decide (b.score ≤ a.score) = true) (h2 : decide (c.score ≤ b.score) = true) :
    decide (c.score ≤ a.score) = true := by
  simp only [decide_eq_true_eq] at *
  exact le_trans h2 h1

/-- The descending-score comparator is total. -/
lemma scoreLe_total (a b : SearchResult) :
    (decide (b.score ≤ a.score) || decide (a.score ≤ b.score)) = true := by
  rcases le_total b.score a.score with h | h <;> simp [h]

/-- C2: `search(query, topK, minScore)` returns only results with score at
least `minScore`, sorted in descending score order, at most `topK` of
them, and results with equal scores keep their original storage-read order
(stable sort, no additional tie-break). -/
theorem search_filter_sorted_topk_stable
    (queryEmb : Option (List ℝ)) (ftsRows : List (String × ℝ)) (query : String)
    (rows : List SearchRow) (topK : Nat) (minScore : ℝ) (out : List SearchResult)
    (hout : out = searchModel queryEmb ftsRows query rows topK minScore) :
    (∀ r ∈ out, minScore ≤ r.score) ∧
    out.Pairwise (fun a b => b.score ≤ a.score) ∧
    out.length ≤ topK ∧
    (∀ s : ℝ, out.filter (fun r => decide (r.score = s)) <+
      (scoredList queryEmb ftsRows query rows).filter fun r => decide (r.score = s)) := by
  by_cases hrows : rows.isEmpty
  · rw [searchModel, if_pos hrows] at hout
    subst hout
    refine ⟨by simp, by simp, by simp, fun s => ?_⟩
    simp only [List.filter_nil]
    exact List.nil_sublist _
  · rw [searchModel, if_neg hrows] at hout
    refine ⟨?_, ?_, ?_, ?_⟩
    · intro r hr
      rw [hout] at hr
      have h1 := List.mem_of_mem_take hr
      rw [List.mem_mergeSort] at h1
      exact of_decide_eq_true (List.mem_filter.mp h1).2
    · have hs := List.sorted_mergeSort scoreLe_trans scoreLe_total
        ((scoredList queryEmb ftsRows query rows).filter fun r => decide (minScore ≤ r.score))
      have ht := hs.sublist (List.take_sublist topK _)
      rw [← hout] at ht
      exact ht.imp fun h => of_decide_eq_true h
    · rw [hout]; exact List.length_take_le _ _
    · intro s
      set q : SearchResult → Bool := fun r => decide (r.score = s) with hq
      set fl := (scoredList queryEmb ftsRows query rows).filter
        fun r => decide (minScore ≤ r.score) with hfl
      have hcq : ∀ a ∈ fl.filter q, q a = true := fun a ha => List.of_mem_filter ha
      have hpw : (fl.filter q).Pairwise fun a b => decide (b.score ≤ a.score) = true := by
        refine List.pairwise_of_forall_mem_list fun a ha b hb => ?_
        have ha' : a.score = s := of_decide_eq_true (hcq a ha)
        have hb' : b.score = s := of_decide_eq_true (hcq b hb)
        simp [ha', hb']
      have hsub : fl.filter q <+ fl.mergeSort fun a b => decide (b.score ≤ a.score) :=
        List.sublist_mergeSort scoreLe_trans scoreLe_total hpw (List.filter_sublist fl)
      have hsub2 : fl.filter q <+
          (fl.mergeSort fun a b => decide (b.score ≤ a.score)).filter q := by
        have := hsub.filter q
        rwa [List.filter_eq_self.mpr hcq] at this
      have hperm : ((fl.mergeSort fun a b => decide (b.score ≤ a.score)).filter q).length =
          (fl.filter q).length :=
        ((List.mergeSort_perm fl _).filter q).length_eq
      have heq : fl.filter q = (fl.mergeSort fun a b => decide (b.score ≤ a.score)).filter q :=
        hsub2.eq_of_length hperm.symm
      have h1 : out.filter q <+
          (fl.mergeSort fun a b => decide (b.score ≤ a.score)).filter q := by
        rw [hout]
        exact (List.take_sublist _ _).filter q
      rw [← heq] at h1
      have h2 : fl.filter q <+
          (scoredList queryEmb ftsRows query rows).filter q := by
        rw [hfl, List.filter_filter]
        exact filter_and_sublist _ _ _
      exact h1.trans h2

/-- Witness for C2 at a concrete search call. -/
theorem search_filter_sorted_topk_stable_witness :
    (searchModel none [] "q" [⟨"c1", "a.md", "text", 1, 1, none⟩] 5 0).Pairwise
      (fun a b => b.score ≤ a.score) ∧
    (searchModel none [] "q" [⟨"c1", "a.md", "text", 1, 1, none⟩] 5 0).length ≤ 5 :=
  ⟨(search_filter_sorted_topk_stable none [] "q" [⟨"c1", "a.md", "text", 1, 1, none⟩]
      5 0 _ rfl).2.1,
   (search_filter_sorted_topk_stable none [] "q" [⟨"c1", "a.md", "text", 1, 1, none⟩]
      5 0 _ rfl).2.2.1⟩

/-! ### Embedding cache behaviour -/

/-- A freshly inserted cache entry is found by a subsequent lookup. -/
lemma getCached_cacheInsert_self (cache : List CacheRow) (h m : String) (v : EmbVec) :
    getCached (cacheInsert cache h m v) h m = some v := by
  rw [getCached, cacheInsert, List.find?_append]
  have hleft : (cache.filter fun r => !(r.hash == h && r.model == m)).find?
      (fun r => r.hash == h && r.model == m) = none := by
    rw [List.find?_eq_none]
    intro x hx
    have hmem := List.mem_filter.mp hx
    simp only [Bool.not_eq_eq_eq_not, Bool.not_true] at hmem
    simp [hmem.2]
  rw [hleft]
  simp [List.find?]

/-- `embedOne` on a cache hit: the cached vector is returned, the cache is
unchanged, no service call is made. -/
lemma embedOne_cached {cfg : EngineConfig} {textHash : String → String} {svc : Service}
    {cache : List CacheRow} {text : String} {v : EmbVec}
    (hkey : cfg.apiKeySet = true)
    (hv : getCached cache (textHash text) cfg.model = some v) :
    embedOne cfg textHash svc cache text = ⟨some v, cache, 0, 0⟩ := by
  simp [embedOne, hkey, hv]

/-- `embedOne` on a cache miss reduces to the retry loop's outcome. -/
lemma embedOne_miss {cfg : EngineConfig} {textHash : String → String} {svc : Service}
    {cache : List CacheRow} {text : String}
    (hkey : cfg.apiKeySet = true)
    (hm : getCached cache (textHash text) cfg.model = none) :
    embedOne cfg textHash svc cache text =
      match attemptLoop svc (text.take 1024) with
      | some (v, n) => ⟨some v, cacheInsert cache (textHash text) cfg.model v, n, 1⟩
      | none => ⟨none, cache, 3, 0⟩ := by
  simp [embedOne, hkey, hm]

/-- C6: for a fixed model, if `(contentHash text, model)` is in the cache,
`embedOne` returns the cached vector with no service call and an unchanged
cache; otherwise at most one successful service call occurs and a
successful result is stored in the cache before being returned; and a
second `embedOne` of the same text after a successful one is a pure cache
hit, so the text is embedded by the service exactly once for the lifetime
of the cache. -/
theorem embed_same_text_one_service_call
    (cfg : EngineConfig) (textHash : String → String) (svc : Service)
    (cache : List CacheRow) (text : String) (hkey : cfg.apiKeySet = true) :
    (∀ v, getCached cache (textHash text) cfg.model = some v →
      embedOne cfg textHash svc cache text = ⟨some v, cache, 0, 0⟩) ∧
    (embedOne cfg textHash svc cache text).succ ≤ 1 ∧
    (∀ v, getCached cache (textHash text) cfg.model = none →
      (embedOne cfg textHash svc cache text).result = some v →
      (embedOne cfg textHash svc cache text).succ = 1 ∧
      getCached (embedOne cfg textHash svc cache text).cache (textHash text) cfg.model =
        some v) ∧
    (∀ v, (embedOne cfg textHash svc cache text).result = some v →
      embedOne cfg textHash svc (embedOne cfg textHash svc cache text).cache text =
        ⟨some v, (embedOne cfg textHash svc cache text).cache, 0, 0⟩) := by
  refine ⟨fun v hv => embedOne_cached hkey hv, ?_, ?_, ?_⟩
  · cases hc : getCached cache (textHash text) cfg.model with
    | some v => simp [embedOne_cached hkey hc]
    | none =>
      rw [embedOne_miss hkey hc]
      cases ha : attemptLoop svc (text.take 1024) with
      | none => exact Nat.zero_le 1
      | some vn => obtain ⟨v', n⟩ := vn; exact Nat.le_refl 1
  · intro v hm hr
    rw [embedOne_miss hkey hm] at hr ⊢
    cases ha : attemptLoop svc (text.take 1024) with
    | none => rw [ha] at hr; exact absurd hr (by simp)
    | some vn =>
      rw [ha] at hr
      obtain ⟨v', n⟩ := vn
      simp only [Option.some.injEq] at hr
      subst hr
      exact ⟨rfl, getCached_cacheInsert_self _ _ _ _⟩
  · intro v hr
    cases hc : getCached cache (textHash text) cfg.model with
    | some w =>
      rw [embedOne_cached hkey hc] at hr ⊢
      simp only [Option.some.injEq] at hr
      subst hr
      exact embedOne_cached hkey hc
    | none =>
      rw [embedOne_miss hkey hc] at hr ⊢
      cases ha : attemptLoop svc (text.take 1024) with
      | none => rw [ha] at hr; exact absurd hr (by simp)
      | some vn =>
        rw [ha] at hr
        obtain ⟨v', n⟩ := vn
        simp only [Option.some.injEq] at hr
        subst hr
        exact embedOne_cached hkey (getCached_cacheInsert_self _ _ _ _)

/-- Witness for C6: a concrete miss-then-hit pair of `embedOne` calls
makes exactly one (successful) service call in total. -/
theorem embed_same_text_one_service_call_witness :
    (embedOne ⟨true, "m", true⟩ (fun s => s) (fun _ _ => some [(1:ℚ)]) [] "t").succ ≤ 1 ∧
    embedOne ⟨true, "m", true⟩ (fun s => s) (fun _ _ => some [(1:ℚ)])
        (embedOne ⟨true, "m", true⟩ (fun s => s) (fun _ _ => some [(1:ℚ)]) [] "t").cache "t" =
      ⟨some [(1:ℚ)],
        (embedOne ⟨true, "m", true⟩ (fun s => s) (fun _ _ => some [(1:ℚ)]) [] "t").cache,
        0, 0⟩ :=
  ⟨(embed_same_text_one_service_call ⟨true, "m", true⟩ (fun s => s)
      (fun _ _ => some [(1:ℚ)]) [] "t" rfl).2.1,
   (embed_same_text_one_service_call ⟨true, "m", true⟩ (fun s => s)
      (fun _ _ => some [(1:ℚ)]) [] "t" rfl).2.2.2 [(1:ℚ)] (by rfl)⟩

/-- `find?` is unaffected by filtering with a weaker predicate. -/
lemma find?_filter_of_imp (p q : α → Bool) (l : List α) (h : ∀ x, p x = true → q x = true) :
    (l.filter q).find? p = l.find? p := by
  induction l with
  | nil => rfl
  | cons x xs ih =>
    by_cases hqx : q x = true
    · by_cases hpx : p x = true
      · simp [List.filter_cons, hqx, List.find?_cons, hpx]
      · simp only [List.filter_cons, hqx, if_true, List.find?_cons]
        simp only [Bool.not_eq_true] at hpx
        simp [hpx, ih]
    · have hpx : p x = false := by
        cases hp : p x with
        | false => rfl
        | true => exact absurd (h x hp) hqx
      simp only [List.filter_cons, hqx, if_false, List.find?_cons, hpx]
      simp [ih]

/-- Inserting a cache entry for a different hash does not change a lookup. -/
lemma getCached_cacheInsert_ne (cache : List CacheRow) {h1 h2 : String} (m : String)
    (v : EmbVec) (hne : h2 ≠ h1) :
    getCached (cacheInsert cache h1 m v) h2 m = getCached cache h2 m := by
  rw [getCached, cacheInsert, List.find?_append]
  have hone : ([(⟨h1, m, v⟩ : CacheRow)].find? fun r => r.hash == h2 && r.model == m) = none := by
    have hh : (h1 == h2) = false := beq_eq_false_iff_ne.mpr (Ne.symm hne)
    simp [List.find?, hh]
  rw [hone, Option.or_none]
  rw [find?_filter_of_imp]
  · rfl
  · intro x hx
    simp only [Bool.and_eq_true, beq_iff_eq] at hx
    simp [hx.1, hx.2, hne]

/-- C10: the embedding request carries only the first 1024 characters of
the text (`text.slice(0, 1024)`), while the cache key is the content hash
of the full text: on a cache miss the outcome is exactly the retry loop
applied to `text.take 1024` (so two texts sharing their first 1024
characters get identical service responses, and the stored embedding of a
long chunk reflects only its first 1024 characters), yet two such texts
with distinct hashes occupy separate cache entries and each triggers its
own service call. -/
theorem embed_truncation_vs_full_hash_key
    (cfg : EngineConfig) (textHash : String → String) (svc : Service)
    (cache : List CacheRow) (t1 t2 : String) (hkey : cfg.apiKeySet = true) :
    (getCached cache (textHash t1) cfg.model = none →
      (embedOne cfg textHash svc cache t1).result =
        match attemptLoop svc (t1.take 1024) with
        | some (v, _) => some v
        | none => none) ∧
    (getCached cache (textHash t1) cfg.model = none →
      getCached cache (textHash t2) cfg.model = none →
      t1.take 1024 = t2.take 1024 →
      (embedOne cfg textHash svc cache t1).result =
          (embedOne cfg textHash svc cache t2).result ∧
        (embedOne cfg textHash svc cache t1).calls =
          (embedOne cfg textHash svc cache t2).calls) ∧
    (∀ v n, getCached cache (textHash t1) cfg.model = none →
      getCached cache (textHash t2) cfg.model = none →
      textHash t1 ≠ textHash t2 →
      t1.take 1024 = t2.take 1024 →
      attemptLoop svc (t1.take 1024) = some (v, n) →
      (embedOne cfg textHash svc cache t1).succ = 1 ∧
      (embedOne cfg textHash svc
          (embedOne cfg textHash svc cache t1).cache t2).succ = 1 ∧
      getCached (embedOne cfg textHash svc
          (embedOne cfg textHash svc cache t1).cache t2).cache
          (textHash t1) cfg.model = some v ∧
      getCached (embedOne cfg textHash svc
          (embedOne cfg textHash svc cache t1).cache t2).cache
          (textHash t2) cfg.model = some v ∧
      (embedOne cfg textHash svc
          (embedOne cfg textHash svc cache t1).cache t2).result = some v) := by
  refine ⟨?_, ?_, ?_⟩
  · intro hm1
    rw [embedOne_miss hkey hm1]
    cases attemptLoop svc (t1.take 1024) with
    | none => rfl
    | some vn => obtain ⟨v, n⟩ := vn; rfl
  · intro hm1 hm2 hpre
    rw [embedOne_miss hkey hm1, embedOne_miss hkey hm2, hpre]
    cases attemptLoop svc (t2.take 1024) with
    | none => exact ⟨rfl, rfl⟩
    | some vn => obtain ⟨v, n⟩ := vn; exact ⟨rfl, rfl⟩
  · intro v n hm1 hm2 hne hpre ha
    rw [embedOne_miss hkey hm1, ha]
    have hm2' : getCached (cacheInsert cache (textHash t1) cfg.model v)
        (textHash t2) cfg.model = none := by
      rw [getCached_cacheInsert_ne cache cfg.model v (Ne.symm hne)]
      exact hm2
    rw [embedOne_miss hkey hm2', ← hpre, ha]
    refine ⟨rfl, rfl, ?_, ?_, rfl⟩
    · rw [getCached_cacheInsert_ne _ cfg.model v hne]
      exact getCached_cacheInsert_self _ _ _ _
    · exact getCached_cacheInsert_self _ _ _ _

/-- A 1025-character text: 1024 `a`s followed by `x`. -/
def c10t1 : String := String.mk (List.replicate 1024 'a' ++ ['x'])

/-- A 1025-character text agreeing with `c10t1` on its first 1024
characters but differing at position 1024. -/
def c10t2 : String := String.mk (List.replicate 1024 'a' ++ ['y'])

/-- Witness for C10: two distinct texts sharing their first 1024
characters each trigger their own service call and get their own cache
entry, and the second one's embedding is the service's response to the
shared 1024-character prefix. -/
theorem embed_truncation_vs_full_hash_key_witness :
    (embedOne ⟨true, "m", true⟩ (fun s => s) (fun _ _ => some [(1:ℚ)]) [] c10t1).succ = 1 ∧
    (embedOne ⟨true, "m", true⟩ (fun s => s) (fun _ _ => some [(1:ℚ)])
        (embedOne ⟨true, "m", true⟩ (fun s => s) (fun _ _ => some [(1:ℚ)]) [] c10t1).cache
        c10t2).succ = 1 ∧
    (embedOne ⟨true, "m", true⟩ (fun s => s) (fun _ _ => some [(1:ℚ)])
        (embedOne ⟨true, "m", true⟩ (fun s => s) (fun _ _ => some [(1:ℚ)]) [] c10t1).cache
        c10t2).result = some [(1:ℚ)] := by
  have hne : c10t1 ≠ c10t2 := by
    intro h
    have h2 : List.replicate 1024 'a' ++ ['x'] = List.replicate 1024 'a' ++ ['y'] :=
      congrArg String.data h
    have h3 : (['x'] : List Char) = ['y'] := List.append_cancel_left h2
    have h4 : 'x' = 'y' := by injection h3
    exact absurd h4 (by decide)
  have hpre : c10t1.take 1024 = c10t2.take 1024 := by
    apply String.ext
    rw [String.data_take, String.data_take]
    show (List.replicate 1024 'a' ++ ['x']).take 1024 =
      (List.replicate 1024 'a' ++ ['y']).take 1024
    rw [List.take_left' (List.length_replicate 1024 'a'),
      List.take_left' (List.length_replicate 1024 'a')]
  have h := (embed_truncation_vs_full_hash_key ⟨true, "m", true⟩ (fun s => s)
      (fun _ _ => some [(1:ℚ)]) [] c10t1 c10t2 rfl).2.2 [(1:ℚ)] 1 rfl rfl hne hpre rfl
  exact ⟨h.1, h.2.1, h.2.2.2.2⟩

/-! ### Chunker thresholds -/

/-- `pushChunk` only ever emits chunks whose trimmed text has at least 20
characters. -/
lemma pushChunk_min_len (textHash : String → String) (path : String) (acc : ChunkAcc)
    (hacc : ∀ c ∈ acc.chunks, 20 ≤ trimmedLen c.text) :
    ∀ c ∈ (pushChunk textHash path acc).chunks, 20 ≤ trimmedLen c.text := by
  intro c hc
  simp only [pushChunk] at hc
  by_cases hlt : trimmedLen (joinLines acc.buf) < 20
  · rw [if_pos hlt] at hc; exact hacc c hc
  · rw [if_neg hlt] at hc
    rw [List.mem_append] at hc
    rcases hc with hc | hc
    · exact hacc c hc
    · rw [List.mem_singleton] at hc
      subst hc
      exact Nat.le_of_not_lt hlt

set_option maxHeartbeats 1000000 in
/-- One chunking-loop step preserves the 20-character minimum of emitted
chunks. -/
lemma chunkStep_min_len (textHash : String → String) (path line : String) (acc : ChunkAcc)
    (hacc : ∀ c ∈ acc.chunks, 20 ≤ trimmedLen c.text) :
    ∀ c ∈ (chunkStep textHash path acc line).chunks, 20 ≤ trimmedLen c.text := by
  simp only [chunkStep]
  split <;> split <;>
    first
      | exact pushChunk_min_len _ _ _ (pushChunk_min_len _ _ _ hacc)
      | exact pushChunk_min_len _ _ _ hacc
      | exact hacc

/-- Every chunk emitted during the chunking loop has a trimmed length of
at least 20. -/
lemma foldl_chunkStep_min_len (textHash : String → String) (path : String) :
    ∀ (lines : List String) (acc : ChunkAcc),
      (∀ c ∈ acc.chunks, 20 ≤ trimmedLen c.text) →
      ∀ c ∈ (lines.foldl (chunkStep textHash path) acc).chunks, 20 ≤ trimmedLen c.text := by
  intro lines
  induction lines with
  | nil => intro acc hacc; simpa using hacc
  | cons l ls ih => intro acc hacc; exact ih _ (chunkStep_min_len textHash path l acc hacc)

/-- C9 counterexample: a trailing buffer with non-whitespace content is
*not* always flushed (`"hello"` has 5 non-whitespace characters yet
produces no chunk), and a final chunk of fewer than 20 non-whitespace
characters is *not* discarded (`"abcdefghijklmno"` has 15 characters and
is emitted), refuting the claim as stated. -/
theorem chunker_thresholds_counterexample :
    (0 < trimmedLen "hello" ∧ chunkFile (fun s => s) "hello" "a.md" = []) ∧
    (chunkFile (fun s => s) "abcdefghijklmno" "a.md" =
      [⟨"a.md:1-1", "a.md", "abcdefghijklmno", 1, 1, "abcdefghijklmno"⟩] ∧
      trimmedLen "abcdefghijklmno" < 20) := by decide

/-- C9 (amended): every chunk emitted by the in-loop triggers has trimmed
length at least 20 (the trimmed length counts interior whitespace, not
only non-whitespace characters); the trailing buffer is flushed as a final
chunk exactly when its trimmed length exceeds 10 — so trailing content of
10 or fewer trimmed characters is discarded, and a trailing chunk of 11 to
19 trimmed characters is kept rather than discarded at the 20-character
threshold. -/
theorem chunker_thresholds_amended (textHash : String → String) (content path : String) :
    (∀ c ∈ (chunkLoop textHash content path).chunks, 20 ≤ trimmedLen c.text) ∧
    ((chunkLoop textHash content path).buf ≠ [] ∧
        10 < trimmedLen (joinLines (chunkLoop textHash content path).buf) →
      chunkFile textHash content path =
        (chunkLoop textHash content path).chunks ++
          [trailingChunk textHash path (chunkLoop textHash content path)]) ∧
    (trimmedLen (joinLines (chunkLoop textHash content path).buf) ≤ 10 →
      chunkFile textHash content path = (chunkLoop textHash content path).chunks) := by
  refine ⟨?_, ?_, ?_⟩
  · rw [chunkLoop]
    exact foldl_chunkStep_min_len textHash path _ _ (by simp)
  · intro h
    rw [chunkFile, if_pos h]
  · intro h
    rw [chunkFile, if_neg]
    rintro ⟨h1, h2⟩
    omega

/-- Witness for the amended C9: `"hello"` (5 trimmed characters, below the
10-character trailing threshold) yields exactly the loop's chunks — none. -/
theorem chunker_thresholds_amended_witness :
    chunkFile (fun s => s) "hello" "a.md" = (chunkLoop (fun s => s) "hello" "a.md").chunks :=
  (chunker_thresholds_amended (fun s => s) "hello" "a.md").2.2 (by decide)

/-! ### File-table lemmas for the incremental indexer -/

/-- Per-path cleanup does not touch the `files` table. -/
lemma deleteForPath_files (cfg : EngineConfig) (st : Store) (p : String) :
    (deleteForPath cfg st p).files = st.files := rfl

/-- Per-path cleanup does not touch the embedding cache. -/
lemma deleteForPath_cache (cfg : EngineConfig) (st : Store) (p : String) :
    (deleteForPath cfg st p).cache = st.cache := rfl

/-- The cleanup fold does not touch the `files` table. -/
lemma foldl_deleteForPath_files (cfg : EngineConfig) :
    ∀ (ps : List String) (st : Store), (ps.foldl (deleteForPath cfg) st).files = st.files := by
  intro ps
  induction ps with
  | nil => intro st; rfl
  | cons p ps ih => intro st; rw [List.foldl_cons, ih, deleteForPath_files]

/-- The cleanup fold does not touch the embedding cache. -/
lemma foldl_deleteForPath_cache (cfg : EngineConfig) :
    ∀ (ps : List String) (st : Store), (ps.foldl (deleteForPath cfg) st).cache = st.cache := by
  intro ps
  induction ps with
  | nil => intro st; rfl
  | cons p ps ih => intro st; rw [List.foldl_cons, ih, deleteForPath_cache]

/-- The cleanup transaction filters the `files` table by the deleted
paths. -/
lemma cleanupTxn_files (cfg : EngineConfig) (st : Store) (changed deleted : List String) :
    (cleanupTxn cfg st changed deleted).files =
      st.files.filter fun f => !(deleted.contains f.path) := by
  rw [cleanupTxn]
  rw [show ((changed ++ deleted).foldl (deleteForPath cfg) st).files = st.files from
    foldl_deleteForPath_files cfg _ st]

/-- The cleanup transaction does not touch the embedding cache. -/
lemma cleanupTxn_cache (cfg : EngineConfig) (st : Store) (changed deleted : List String) :
    (cleanupTxn cfg st changed deleted).cache = st.cache :=
  foldl_deleteForPath_cache cfg _ st

/-- Chunk-row insertion does not touch the `files` table. -/
lemma insertChunkRow_files (st : Store) (row : ChunkRow) :
    (insertChunkRow st row).files = st.files := rfl

/-- FTS insertion does not touch the `files` table. -/
lemma insertFts_files (cfg : EngineConfig) (st : Store) (id text : String) :
    (insertFts cfg st id text).files = st.files := by
  rw [insertFts]; split <;> rfl

/-- The per-file insert fold does not touch the `files` table. -/
lemma foldl_insert_files (cfg : EngineConfig) :
    ∀ (l : List (Chunk × Option EmbVec)) (st : Store),
      (l.foldl (fun s ce =>
        insertFts cfg (insertChunkRow s (mkChunkRow ce.1 ce.2)) ce.1.id ce.1.text) st).files =
      st.files := by
  intro l
  induction l with
  | nil => intro st; rfl
  | cons ce l ih =>
    intro st
    rw [List.foldl_cons, ih, insertFts_files, insertChunkRow_files]

/-- The per-file transaction upserts exactly the file row. -/
lemma writeFileTxn_files (cfg : EngineConfig) (st : Store) (path fhash : String) (fsize : Nat)
    (chunks : List Chunk) (embs : List (Option EmbVec)) :
    (writeFileTxn cfg st path fhash fsize chunks embs).files =
      (st.files.filter fun f => !(f.path == path)) ++ [⟨path, fhash, fsize⟩] := by
  rw [writeFileTxn]
  rw [show ((chunks.zip embs).foldl (fun s ce =>
      insertFts cfg (insertChunkRow s (mkChunkRow ce.1 ce.2)) ce.1.id ce.1.text) st).files =
    st.files from foldl_insert_files cfg _ st]

/-- Indexing one file upserts exactly its file row. -/
lemma indexFile_files (cfg : EngineConfig) (textHash : String → String) (svc : Service)
    (st : Store) (p : String) (f : DiskFile) :
    (indexFile cfg textHash svc st p f).files =
      (st.files.filter fun fr => !(fr.path == p)) ++ [⟨p, f.hash, f.size⟩] := by
  rw [indexFile, writeFileTxn_files]

/-- A file lookup right after an upsert of the same path returns the new
hash. -/
lemma lookupFile_upsert_self (files : List FileRow) (p h : String) (n : Nat) :
    lookupFile ((files.filter fun fr => !(fr.path == p)) ++ [⟨p, h, n⟩]) p = some h := by
  rw [lookupFile, List.find?_append]
  have hleft : (files.filter fun fr => !(fr.path == p)).find? (fun fr => fr.path == p) = none := by
    rw [List.find?_eq_none]
    intro x hx
    have hmem := (List.mem_filter.mp hx).2
    simp only [Bool.not_eq_eq_eq_not, Bool.not_true] at hmem
    simp [hmem]
  rw [hleft]
  simp [List.find?]

/-- A file lookup for a different path is unaffected by an upsert. -/
lemma lookupFile_upsert_ne (files : List FileRow) (p h : String) (n : Nat) {q : String}
    (hq : q ≠ p) :
    lookupFile ((files.filter fun fr => !(fr.path == p)) ++ [⟨p, h, n⟩]) q =
      lookupFile files q := by
  rw [lookupFile, List.find?_append]
  have hone : ([(⟨p, h, n⟩ : FileRow)].find? fun fr => fr.path == q) = none := by
    have hh : (p == q) = false := beq_eq_false_iff_ne.mpr (Ne.symm hq)
    simp [List.find?, hh]
  rw [hone, Option.or_none, find?_filter_of_imp]
  · rfl
  · intro x hx
    simp only [beq_iff_eq] at hx
    simp [hx, hq]

/-- A file lookup for a surviving path is unaffected by the deleted-path
filter. -/
lemma lookupFile_filter_deleted (files : List FileRow) (deleted : List String) {q : String}
    (hq : deleted.contains q = false) :
    lookupFile (files.filter fun f => !(deleted.contains f.path)) q = lookupFile files q := by
  rw [lookupFile, find?_filter_of_imp]
  · rfl
  · intro x hx
    simp only [beq_iff_eq] at hx
    rw [hx, Bool.not_eq_true']
    exact hq

/-- With duplicate-free disk keys, `diskFiles.get` returns the entry
itself. -/
lemma lookupDisk_of_mem_nodup :
    ∀ {disk : List (String × DiskFile)}, (disk.map Prod.fst).Nodup →
      ∀ {pf : String × DiskFile}, pf ∈ disk → lookupDisk disk pf.1 = some pf.2 := by
  intro disk
  induction disk with
  | nil => intro _ pf hpf; exact absurd hpf (List.not_mem_nil pf)
  | cons q rest ih =>
    intro hnodup pf hpf
    rw [List.map_cons, List.nodup_cons] at hnodup
    rcases List.mem_cons.mp hpf with rfl | hpf'
    · rw [lookupDisk, List.find?_cons_of_pos _ (by simp)]
      rfl
    · have hne : q.1 ≠ pf.1 := by
        intro he
        exact hnodup.1 (he ▸ List.mem_map_of_mem Prod.fst hpf')
      rw [lookupDisk, List.find?_cons_of_neg _ (by simp [hne])]
      exact ih hnodup.2 hpf'

/-- Any present disk key has a disk entry. -/
lemma lookupDisk_isSome_of_mem {disk : List (String × DiskFile)} {q : String}
    (hq : q ∈ disk.map Prod.fst) : ∃ f, lookupDisk disk q = some f := by
  obtain ⟨pf, hpf, rfl⟩ := List.mem_map.mp hq
  have hsome : (disk.find? fun r => r.1 == pf.1).isSome := by
    rw [List.find?_isSome]
    exact ⟨pf, hpf, by simp⟩
  obtain ⟨r, hr⟩ := Option.isSome_iff_exists.mp hsome
  exact ⟨r.2, by rw [lookupDisk, hr]; rfl⟩

/-- The file-table lookup after re-indexing the changed paths: a changed
path maps to its on-disk hash, any other path is untouched. -/
lemma indexChanged_lookupFile (cfg : EngineConfig) (textHash : String → String) (svc : Service)
    (disk : List (String × DiskFile)) :
    ∀ (changed : List String) (st : Store) (p : String),
      (∀ q ∈ changed, ∃ f, lookupDisk disk q = some f) →
      lookupFile (indexChanged cfg textHash svc disk st changed).files p =
        if p ∈ changed then (lookupDisk disk p).map (·.hash) else lookupFile st.files p := by
  intro changed
  induction changed with
  | nil => intro st p _; simp [indexChanged]
  | cons q qs ih =>
    intro st p hdq
    obtain ⟨f, hf⟩ := hdq q (List.mem_cons_self q qs)
    have hstep : indexChanged cfg textHash svc disk st (q :: qs) =
        indexChanged cfg textHash svc disk (indexFile cfg textHash svc st q f) qs := by
      rw [indexChanged, List.foldl_cons, hf]
      rfl
    rw [hstep, ih _ p (fun r hr => hdq r (List.mem_cons_of_mem q hr))]
    by_cases hpqs : p ∈ qs
    · rw [if_pos hpqs, if_pos (List.mem_cons_of_mem q hpqs)]
    · by_cases hpq : p = q
      · subst hpq
        rw [if_neg hpqs, if_pos (List.mem_cons_self p qs), hf, indexFile_files,
          lookupFile_upsert_self]
        rfl
      · rw [if_neg hpqs, if_neg (by simp [hpq, hpqs]), indexFile_files,
          lookupFile_upsert_ne _ _ _ _ hpq]

/-- Every file row after re-indexing either survived from the starting
store or belongs to a changed path. -/
lemma indexChanged_files_mem (cfg : EngineConfig) (textHash : String → String) (svc : Service)
    (disk : List (String × DiskFile)) :
    ∀ (changed : List String) (st : Store) (fr : FileRow),
      fr ∈ (indexChanged cfg textHash svc disk st changed).files →
      fr ∈ st.files ∨ fr.path ∈ changed := by
  intro changed
  induction changed with
  | nil => intro st fr h; exact Or.inl (by simpa [indexChanged] using h)
  | cons q qs ih =>
    intro st fr h
    rw [indexChanged, List.foldl_cons] at h
    cases hf : lookupDisk disk q with
    | none =>
      rw [hf] at h
      rcases ih st fr h with h1 | h1
      · exact Or.inl h1
      · exact Or.inr (List.mem_cons_of_mem q h1)
    | some f =>
      rw [hf] at h
      rcases ih (indexFile cfg textHash svc st q f) fr h with h1 | h1
      · rw [indexFile_files] at h1
        rcases List.mem_append.mp h1 with h2 | h2
        · exact Or.inl (List.mem_of_mem_filter h2)
        · rw [List.mem_singleton] at h2
          subst h2
          exact Or.inr (List.mem_cons_self q qs)
      · exact Or.inr (List.mem_cons_of_mem q h1)

/-- After a full (nonempty-diff) index pass, a second diff against the
same disk is empty: every disk path's stored hash matches and every stored
file row is still on disk. -/
lemma diffFiles_after_pass (cfg : EngineConfig) (textHash : String → String) (svc : Service)
    (disk : List (String × DiskFile)) (st : Store)
    (hdisk : (disk.map Prod.fst).Nodup) :
    diffFiles (indexChanged cfg textHash svc disk
      (cleanupTxn cfg st (diffFiles st disk).1 (diffFiles st disk).2) (diffFiles st disk).1)
      disk = ([], []) := by
  set changed := (diffFiles st disk).1 with hchanged
  set deleted := (diffFiles st disk).2 with hdeleted
  set st2 := indexChanged cfg textHash svc disk (cleanupTxn cfg st changed deleted) changed
    with hst2
  have hchanged_disk : ∀ q ∈ changed, q ∈ disk.map Prod.fst := by
    intro q hq
    rw [hchanged, diffFiles] at hq
    obtain ⟨pf, hpf, rfl⟩ := List.mem_map.mp hq
    exact List.mem_map_of_mem Prod.fst (List.mem_of_mem_filter hpf)
  have hdq : ∀ q ∈ changed, ∃ f, lookupDisk disk q = some f := fun q hq =>
    lookupDisk_isSome_of_mem (hchanged_disk q hq)
  have hdel_off_disk : ∀ q ∈ deleted, disk.any (fun pf => pf.1 == q) = false := by
    intro q hq
    rw [hdeleted, diffFiles] at hq
    obtain ⟨fr, hfr, rfl⟩ := List.mem_map.mp hq
    have h2 := (List.mem_filter.mp hfr).2
    rwa [Bool.not_eq_eq_eq_not, Bool.not_true] at h2
  have hmain : ∀ pf ∈ disk, lookupFile st2.files pf.1 = some pf.2.hash := by
    intro pf hpf
    rw [hst2, indexChanged_lookupFile cfg textHash svc disk changed _ pf.1 hdq]
    by_cases hc : pf.1 ∈ changed
    · rw [if_pos hc, lookupDisk_of_mem_nodup hdisk hpf]
      rfl
    · rw [if_neg hc, cleanupTxn_files]
      have hnotdel : deleted.contains pf.1 = false := by
        cases hcon : deleted.contains pf.1 with
        | false => rfl
        | true =>
          have hmem : pf.1 ∈ deleted := by simpa using hcon
          have hfalse := hdel_off_disk pf.1 hmem
          have htrue : (disk.any fun x => x.1 == pf.1) = true :=
            List.any_eq_true.mpr ⟨pf, hpf, by simp⟩
          rw [hfalse] at htrue
          exact absurd htrue (by simp)
      rw [lookupFile_filter_deleted _ _ hnotdel]
      have hkeep : (!(lookupFile st.files pf.1 == some pf.2.hash)) = false := by
        cases hb : (!(lookupFile st.files pf.1 == some pf.2.hash)) with
        | false => rfl
        | true =>
          exact absurd (List.mem_map_of_mem Prod.fst (List.mem_filter.mpr ⟨hpf, hb⟩)) hc
      rw [Bool.not_eq_eq_eq_not, Bool.not_false] at hkeep
      exact eq_of_beq hkeep
  have hrows : ∀ fr ∈ st2.files, (disk.any fun pf => pf.1 == fr.path) = true := by
    intro fr hfr
    rcases indexChanged_files_mem cfg textHash svc disk changed _ fr hfr with h1 | h1
    · rw [cleanupTxn_files] at h1
      have h2 := List.mem_filter.mp h1
      cases hany : disk.any fun pf => pf.1 == fr.path with
      | true => rfl
      | false =>
        have hdel : fr.path ∈ deleted := by
          rw [hdeleted, diffFiles]
          exact List.mem_map_of_mem FileRow.path
            (List.mem_filter.mpr ⟨h2.1, by rw [hany]; rfl⟩)
        have := h2.2
        rw [Bool.not_eq_eq_eq_not, Bool.not_true] at this
        rw [show deleted.contains fr.path = true by simpa using hdel] at this
        exact absurd this (by simp)
    · obtain ⟨pf, hpf, hpf1⟩ := List.mem_map.mp (hchanged_disk fr.path h1)
      exact List.any_eq_true.mpr ⟨pf, hpf, by simp [hpf1]⟩
  rw [diffFiles]
  have h1 : (disk.filter fun pf => !(lookupFile st2.files pf.1 == some pf.2.hash)) = [] := by
    rw [List.filter_eq_nil_iff]
    intro pf hpf
    rw [hmain pf hpf]
    simp
  have h2 : (st2.files.filter fun f => !(disk.any fun pf => pf.1 == f.path)) = [] := by
    rw [List.filter_eq_nil_iff]
    intro fr hfr
    rw [hrows fr hfr]
    simp
  rw [h1, h2]
  rfl

/-- C3: indexing is idempotent — running `_indexInner` again on the
store produced by a first run (with the disk unchanged) leaves the store
untouched and returns the same chunk count (the whole result pair is
unchanged); and whenever the disk scan is nonempty and the changed and
deleted path sets are both empty, `_indexInner` returns the current stored
chunk count with the store untouched. -/
theorem index_twice_idempotent
    (cfg : EngineConfig) (textHash : String → String) (svc : Service)
    (disk : List (String × DiskFile)) (st : Store)
    (hdisk : (disk.map Prod.fst).Nodup) :
    (_indexInner cfg textHash svc disk ((_indexInner cfg textHash svc disk st).1) =
      _indexInner cfg textHash svc disk st) ∧
    (disk ≠ [] → (diffFiles st disk).1 = [] → (diffFiles st disk).2 = [] →
      _indexInner cfg textHash svc disk st = (st, st.chunks.length)) := by
  constructor
  · by_cases hd : disk.isEmpty
    · have h1 : _indexInner cfg textHash svc disk st = (st, 0) := by
        rw [_indexInner, if_pos hd]
      rw [h1]
      exact h1
    · by_cases hdi : (diffFiles st disk).1.isEmpty ∧ (diffFiles st disk).2.isEmpty
      · have h1 : _indexInner cfg textHash svc disk st = (st, st.chunks.length) := by
          rw [_indexInner, if_neg hd]
          exact if_pos hdi
        rw [h1]
        exact h1
      · set st2 := indexChanged cfg textHash svc disk
          (cleanupTxn cfg st (diffFiles st disk).1 (diffFiles st disk).2)
          (diffFiles st disk).1 with hst2
        have h1 : _indexInner cfg textHash svc disk st = (st2, st2.chunks.length) := by
          rw [_indexInner, if_neg hd]
          exact if_neg hdi
        have h2 := diffFiles_after_pass cfg textHash svc disk st hdisk
        have h3 : _indexInner cfg textHash svc disk st2 = (st2, st2.chunks.length) := by
          rw [_indexInner, if_neg hd]
          refine if_pos ?_
          rw [← hst2] at h2
          rw [h2]
          exact ⟨rfl, rfl⟩
        rw [h1]
        exact h3
  · intro hne h1 h2
    have hd : disk.isEmpty = false := by
      cases disk with
      | nil => exact absurd rfl hne
      | cons a l => rfl
    rw [_indexInner, if_neg (by simp [hd])]
    refine if_pos ?_
    rw [h1, h2]
    exact ⟨rfl, rfl⟩

/-- Witness for C3 at a concrete one-file disk and empty store. -/
theorem index_twice_idempotent_witness :
    _indexInner ⟨true, "m", true⟩ (fun s => s) (fun _ _ => some [(1:ℚ)])
        [("a.md", ⟨"abcdefghijklmnopqrstu", "abcdefghijklmnopqrstu", 21⟩)]
        ((_indexInner ⟨true, "m", true⟩ (fun s => s) (fun _ _ => some [(1:ℚ)])
          [("a.md", ⟨"abcdefghijklmnopqrstu", "abcdefghijklmnopqrstu", 21⟩)]
          ⟨[], [], [], []⟩).1) =
      _indexInner ⟨true, "m", true⟩ (fun s => s) (fun _ _ => some [(1:ℚ)])
        [("a.md", ⟨"abcdefghijklmnopqrstu", "abcdefghijklmnopqrstu", 21⟩)]
        ⟨[], [], [], []⟩ :=
  (index_twice_idempotent ⟨true, "m", true⟩ (fun s => s) (fun _ _ => some [(1:ℚ)])
    [("a.md", ⟨"abcdefghijklmnopqrstu", "abcdefghijklmnopqrstu", 21⟩)]
    ⟨[], [], [], []⟩ (by decide)).1

/-! ### Chunk-table frame lemmas -/

/-- `pushChunk` emits chunks carrying the file's path. -/
lemma pushChunk_path (textHash : String → String) (path : String) (acc : ChunkAcc)
    (hacc : ∀ c ∈ acc.chunks, c.path = path) :
    ∀ c ∈ (pushChunk textHash path acc).chunks, c.path = path := by
  intro c hc
  simp only [pushChunk] at hc
  by_cases hlt : trimmedLen (joinLines acc.buf) < 20
  · rw [if_pos hlt] at hc; exact hacc c hc
  · rw [if_neg hlt] at hc
    rcases List.mem_append.mp hc with hc | hc
    · exact hacc c hc
    · rw [List.mem_singleton] at hc; subst hc; rfl

set_option maxHeartbeats 1000000 in
/-- One chunking-loop step emits chunks carrying the file's path. -/
lemma chunkStep_path (textHash : String → String) (path line : String) (acc : ChunkAcc)
    (hacc : ∀ c ∈ acc.chunks, c.path = path) :
    ∀ c ∈ (chunkStep textHash path acc line).chunks, c.path = path := by
  simp only [chunkStep]
  split <;> split <;>
    first
      | exact pushChunk_path _ _ _ (pushChunk_path _ _ _ hacc)
      | exact pushChunk_path _ _ _ hacc
      | exact hacc

/-- The chunking loop emits chunks carrying the file's path. -/
lemma foldl_chunkStep_path (textHash : String → String) (path : String) :
    ∀ (lines : List String) (acc : ChunkAcc),
      (∀ c ∈ acc.chunks, c.path = path) →
      ∀ c ∈ (lines.foldl (chunkStep textHash path) acc).chunks, c.path = path := by
  intro lines
  induction lines with
  | nil => intro acc hacc; simpa using hacc
  | cons l ls ih => intro acc hacc; exact ih _ (chunkStep_path textHash path l acc hacc)

/-- Every chunk of `chunkFile content path` carries `path`. -/
lemma chunkFile_path (textHash : String → String) (content path : String) :
    ∀ c ∈ chunkFile textHash content path, c.path = path := by
  intro c hc
  rw [chunkFile] at hc
  split at hc
  · rcases List.mem_append.mp hc with hc | hc
    · exact foldl_chunkStep_path textHash path _ _ (by simp) c hc
    · rw [List.mem_singleton] at hc; subst hc; rfl
  · exact foldl_chunkStep_path textHash path _ _ (by simp) c hc

/-- A successful `diskFiles.get` comes from a disk entry. -/
lemma lookupDisk_mem {disk : List (String × DiskFile)} {q : String} {f : DiskFile}
    (h : lookupDisk disk q = some f) : (q, f) ∈ disk := by
  rw [lookupDisk] at h
  cases hf : disk.find? (fun pf => pf.1 == q) with
  | none => rw [hf] at h; exact absurd h (by simp)
  | some pf =>
    rw [hf] at h
    have h1 : pf.1 = q := by simpa using List.find?_some hf
    have h2 : pf.2 = f := by simpa using h
    have h3 := List.mem_of_find?_eq_some hf
    rw [← h1, ← h2]
    simpa using h3

/-- Deleting another path's rows preserves a path's chunk rows. -/
lemma deleteForPath_chunks_other (cfg : EngineConfig) (st : Store) {q p0 : String}
    (h : q ≠ p0) :
    (deleteForPath cfg st q).chunks.filter (fun c => c.path == p0) =
      st.chunks.filter fun c => c.path == p0 := by
  show (st.chunks.filter fun c => !(c.path == q)).filter (fun c => c.path == p0) = _
  rw [List.filter_filter]
  refine List.filter_congr fun c _ => ?_
  by_cases hcp : c.path = p0
  · simp only [hcp]
    have hq : (p0 == q) = false := beq_eq_false_iff_ne.mpr (Ne.symm h)
    simp [hq]
  · simp [hcp]

/-- The cleanup fold preserves the chunk rows of untouched paths. -/
lemma foldl_deleteForPath_chunks_other (cfg : EngineConfig) {p0 : String} :
    ∀ (ps : List String) (st : Store), p0 ∉ ps →
      (ps.foldl (deleteForPath cfg) st).chunks.filter (fun c => c.path == p0) =
        st.chunks.filter fun c => c.path == p0 := by
  intro ps
  induction ps with
  | nil => intro st _; rfl
  | cons q qs ih =>
    intro st hp0
    rw [List.foldl_cons, ih _ (fun h => hp0 (List.mem_cons_of_mem q h)),
      deleteForPath_chunks_other cfg st
        (fun h => hp0 (by rw [← h]; exact List.mem_cons_self q qs))]

/-- The cleanup transaction preserves the chunk rows of untouched paths. -/
lemma cleanupTxn_chunks_other (cfg : EngineConfig) (st : Store) (changed deleted : List String)
    {p0 : String} (hc : p0 ∉ changed) (hd : p0 ∉ deleted) :
    (cleanupTxn cfg st changed deleted).chunks.filter (fun c => c.path == p0) =
      st.chunks.filter fun c => c.path == p0 := by
  rw [cleanupTxn]
  exact foldl_deleteForPath_chunks_other cfg _ st
    (by simp [List.mem_append, hc, hd])

/-- FTS insertion does not touch the chunk table. -/
lemma insertFts_chunks (cfg : EngineConfig) (st : Store) (id text : String) :
    (insertFts cfg st id text).chunks = st.chunks := by
  rw [insertFts]; split <;> rfl

/-- Inserting a chunk row of another path with a fresh id preserves a
path's chunk rows. -/
lemma insertChunkRow_chunks_other (st : Store) (row : ChunkRow) {p0 : String}
    (hpath : row.path ≠ p0)
    (hid : ∀ c ∈ st.chunks, c.path = p0 → c.id ≠ row.id) :
    (insertChunkRow st row).chunks.filter (fun c => c.path == p0) =
      st.chunks.filter fun c => c.path == p0 := by
  show ((st.chunks.filter fun c => !(c.id == row.id)) ++ [row]).filter
      (fun c => c.path == p0) = _
  rw [List.filter_append, List.filter_filter]
  have h1 : [row].filter (fun c => c.path == p0) = [] := by
    have : (row.path == p0) = false := beq_eq_false_iff_ne.mpr hpath
    simp [List.filter_cons, this]
  rw [h1, List.append_nil]
  refine List.filter_congr fun c hc => ?_
  by_cases hcp : c.path = p0
  · have : (c.id == row.id) = false := beq_eq_false_iff_ne.mpr (hid c hc hcp)
    simp [hcp, this]
  · simp [hcp]

/-- The per-file insert fold preserves the chunk rows of another path when
no new id collides with them. -/
lemma foldl_insert_chunks_other (cfg : EngineConfig) {p0 : String}
    (rows0 : List ChunkRow) :
    ∀ (l : List (Chunk × Option EmbVec)) (s : Store),
      s.chunks.filter (fun c => c.path == p0) = rows0 →
      (∀ ce ∈ l, ce.1.path ≠ p0) →
      (∀ c ∈ rows0, ∀ ce ∈ l, c.id ≠ ce.1.id) →
      ((l.foldl (fun s ce =>
          insertFts cfg (insertChunkRow s (mkChunkRow ce.1 ce.2)) ce.1.id ce.1.text) s).chunks.filter
        (fun c => c.path == p0)) = rows0 := by
  intro l
  induction l with
  | nil => intro s hs _ _; exact hs
  | cons ce l ih =>
    intro s hs hpath hid
    rw [List.foldl_cons]
    refine ih _ ?_ (fun ce' h => hpath ce' (List.mem_cons_of_mem ce h))
      (fun c hc ce' h => hid c hc ce' (List.mem_cons_of_mem ce h))
    rw [show (insertFts cfg (insertChunkRow s (mkChunkRow ce.1 ce.2)) ce.1.id ce.1.text).chunks =
      (insertChunkRow s (mkChunkRow ce.1 ce.2)).chunks from insertFts_chunks _ _ _ _]
    rw [← hs]
    refine insertChunkRow_chunks_other s _ (hpath ce (List.mem_cons_self ce l)) ?_
    intro c hcs hcp
    have hcrows : c ∈ rows0 := by
      rw [← hs]
      exact List.mem_filter.mpr ⟨hcs, by simp [hcp]⟩
    exact hid c hcrows ce (List.mem_cons_self ce l)

/-- Indexing one file preserves the chunk rows of another path when no new
chunk id collides with them. -/
lemma indexFile_chunks_other (cfg : EngineConfig) (textHash : String → String) (svc : Service)
    (st : Store) (p : String) (f : DiskFile) {p0 : String} (hpath : p ≠ p0)
    (hid : ∀ c ∈ st.chunks, c.path = p0 →
      ∀ ch ∈ chunkFile textHash f.content p, c.id ≠ ch.id) :
    (indexFile cfg textHash svc st p f).chunks.filter (fun c => c.path == p0) =
      st.chunks.filter fun c => c.path == p0 := by
  rw [indexFile]
  refine foldl_insert_chunks_other cfg _ _ _ rfl ?_ ?_
  · intro ce hce
    have h1 := (List.of_mem_zip hce).1
    rw [chunkFile_path textHash f.content p ce.1 h1]
    exact hpath
  · intro c hc ce hce
    have h1 := List.mem_filter.mp hc
    exact hid c h1.1 (by simpa using h1.2) ce.1 (List.of_mem_zip hce).1

/-- Re-indexing the changed paths preserves the chunk rows of an untouched
path when no new chunk id collides with them. -/
lemma indexChanged_chunks_other (cfg : EngineConfig) (textHash : String → String)
    (svc : Service) (disk : List (String × DiskFile)) {p0 : String} :
    ∀ (changed : List String) (s : Store) (rows0 : List ChunkRow),
      s.chunks.filter (fun c => c.path == p0) = rows0 →
      p0 ∉ changed →
      (∀ c ∈ rows0, ∀ q ∈ changed, ∀ pf ∈ disk, pf.1 = q →
        ∀ ch ∈ chunkFile textHash pf.2.content q, c.id ≠ ch.id) →
      (indexChanged cfg textHash svc disk s changed).chunks.filter
        (fun c => c.path == p0) = rows0 := by
  intro changed
  induction changed with
  | nil => intro s rows0 hs _ _; simpa [indexChanged] using hs
  | cons q qs ih =>
    intro s rows0 hs hp0 hids
    have hq : q ≠ p0 := fun h => hp0 (by rw [← h]; exact List.mem_cons_self q qs)
    cases hf : lookupDisk disk q with
    | none =>
      have hstep : indexChanged cfg textHash svc disk s (q :: qs) =
          indexChanged cfg textHash svc disk s qs := by
        rw [indexChanged, List.foldl_cons, hf]
        rfl
      rw [hstep]
      exact ih s rows0 hs (fun h => hp0 (List.mem_cons_of_mem q h))
        (fun c hc r hr => hids c hc r (List.mem_cons_of_mem q hr))
    | some f =>
      have hstep : indexChanged cfg textHash svc disk s (q :: qs) =
          indexChanged cfg textHash svc disk (indexFile cfg textHash svc s q f) qs := by
        rw [indexChanged, List.foldl_cons, hf]
        rfl
      rw [hstep]
      refine ih _ rows0 ?_ (fun h => hp0 (List.mem_cons_of_mem q h))
        (fun c hc r hr => hids c hc r (List.mem_cons_of_mem q hr))
      rw [← hs]
      refine indexFile_chunks_other cfg textHash svc s q f hq ?_
      intro c hcs hcp ch hch
      have hcrows : c ∈ rows0 := by
        rw [← hs]
        exact List.mem_filter.mpr ⟨hcs, by simp [hcp]⟩
      exact hids c hcrows q (List.mem_cons_self q qs) (q, f) (lookupDisk_mem hf) rfl ch hch

/-- A file-row upsert of another path preserves a path's file rows. -/
lemma upsert_files_filter_other (files : List FileRow) (p h : String) (n : Nat) {p0 : String}
    (hne : p ≠ p0) :
    ((files.filter fun fr => !(fr.path == p)) ++ [(⟨p, h, n⟩ : FileRow)]).filter
      (fun fr => fr.path == p0) = files.filter fun fr => fr.path == p0 := by
  rw [List.filter_append, List.filter_filter]
  have h1 : ([(⟨p, h, n⟩ : FileRow)].filter fun fr => fr.path == p0) = [] := by
    have : (p == p0) = false := beq_eq_false_iff_ne.mpr hne
    simp [List.filter_cons, this]
  rw [h1, List.append_nil]
  refine List.filter_congr fun fr _ => ?_
  by_cases hfp : fr.path = p0
  · simp only [hfp]
    have : (p0 == p) = false := beq_eq_false_iff_ne.mpr (Ne.symm hne)
    simp [this]
  · simp [hfp]

/-- Re-indexing the changed paths preserves the file rows of an untouched
path. -/
lemma indexChanged_files_other (cfg : EngineConfig) (textHash : String → String)
    (svc : Service) (disk : List (String × DiskFile)) {p0 : String} :
    ∀ (changed : List String) (s : Store), p0 ∉ changed →
      (indexChanged cfg textHash svc disk s changed).files.filter
        (fun f => f.path == p0) = s.files.filter fun f => f.path == p0 := by
  intro changed
  induction changed with
  | nil => intro s _; rfl
  | cons q qs ih =>
    intro s hp0
    have hq : q ≠ p0 := fun h => hp0 (by rw [← h]; exact List.mem_cons_self q qs)
    cases hf : lookupDisk disk q with
    | none =>
      have hstep : indexChanged cfg textHash svc disk s (q :: qs) =
          indexChanged cfg textHash svc disk s qs := by
        rw [indexChanged, List.foldl_cons, hf]
        rfl
      rw [hstep]
      exact ih s (fun h => hp0 (List.mem_cons_of_mem q h))
    | some f =>
      have hstep : indexChanged cfg textHash svc disk s (q :: qs) =
          indexChanged cfg textHash svc disk (indexFile cfg textHash svc s q f) qs := by
        rw [indexChanged, List.foldl_cons, hf]
        rfl
      rw [hstep, ih _ (fun h => hp0 (List.mem_cons_of_mem q h)), indexFile_files,
        upsert_files_filter_other _ _ _ _ hq]

/-- The cleanup transaction preserves the file rows of a non-deleted
path. -/
lemma cleanupTxn_files_other (cfg : EngineConfig) (st : Store)
    (changed deleted : List String) {p0 : String} (hd : p0 ∉ deleted) :
    (cleanupTxn cfg st changed deleted).files.filter (fun f => f.path == p0) =
      st.files.filter fun f => f.path == p0 := by
  rw [cleanupTxn_files, List.filter_filter]
  refine List.filter_congr fun fr _ => ?_
  by_cases hfp : fr.path = p0
  · simp [hfp, hd]
  · simp [hfp]

/-- C4: re-running `index()` after modifying some files leaves every
unmodified file's chunk rows (ids, text, line ranges, embeddings) and file
row untouched: a path whose stored hash matches its on-disk hash is in
neither the changed nor the deleted set, and the rows of any path outside
those sets are neither deleted nor rewritten (given that no freshly
generated chunk id collides with them). -/
theorem index_frame_unmodified
    (cfg : EngineConfig) (textHash : String → String) (svc : Service)
    (disk : List (String × DiskFile)) (st : Store) (p0 : String)
    (hdisk : (disk.map Prod.fst).Nodup) :
    (∀ f0, lookupDisk disk p0 = some f0 → lookupFile st.files p0 = some f0.hash →
      p0 ∉ (diffFiles st disk).1 ∧ p0 ∉ (diffFiles st disk).2) ∧
    (p0 ∉ (diffFiles st disk).1 → p0 ∉ (diffFiles st disk).2 →
      (∀ c ∈ st.chunks, c.path = p0 → ∀ q ∈ (diffFiles st disk).1, ∀ pf ∈ disk, pf.1 = q →
        ∀ ch ∈ chunkFile textHash pf.2.content q, c.id ≠ ch.id) →
      (_indexInner cfg textHash svc disk st).1.chunks.filter (fun c => c.path == p0) =
        st.chunks.filter (fun c => c.path == p0) ∧
      (_indexInner cfg textHash svc disk st).1.files.filter (fun f => f.path == p0) =
        st.files.filter fun f => f.path == p0) := by
  constructor
  · intro f0 hdisk0 hstored
    constructor
    · intro hc
      rw [diffFiles] at hc
      obtain ⟨pf, hpf, hpf1⟩ := List.mem_map.mp hc
      have hpfd : pf ∈ disk := List.mem_of_mem_filter hpf
      have hpred := (List.mem_filter.mp hpf).2
      have hlk : lookupDisk disk pf.1 = some pf.2 := lookupDisk_of_mem_nodup hdisk hpfd
      rw [hpf1, hdisk0] at hlk
      have hpf2 : pf.2 = f0 := by simpa using hlk.symm
      rw [hpf1, hstored, hpf2] at hpred
      simp at hpred
    · intro hd
      rw [diffFiles] at hd
      obtain ⟨fr, hfr, hfr1⟩ := List.mem_map.mp hd
      have hpred := (List.mem_filter.mp hfr).2
      have hmem : (p0, f0) ∈ disk := lookupDisk_mem hdisk0
      have hany : (disk.any fun pf => pf.1 == fr.path) = true :=
        List.any_eq_true.mpr ⟨(p0, f0), hmem, by simp [hfr1]⟩
      rw [hany] at hpred
      simp at hpred
  · intro hc hd hids
    by_cases hde : disk.isEmpty
    · rw [_indexInner, if_pos hde]
      exact ⟨rfl, rfl⟩
    · by_cases hdi : (diffFiles st disk).1.isEmpty ∧ (diffFiles st disk).2.isEmpty
      · have h1 : _indexInner cfg textHash svc disk st = (st, st.chunks.length) := by
          rw [_indexInner, if_neg hde]
          exact if_pos hdi
        rw [h1]
        exact ⟨rfl, rfl⟩
      · have h1 : _indexInner cfg textHash svc disk st =
            (indexChanged cfg textHash svc disk
              (cleanupTxn cfg st (diffFiles st disk).1 (diffFiles st disk).2)
              (diffFiles st disk).1,
             (indexChanged cfg textHash svc disk
              (cleanupTxn cfg st (diffFiles st disk).1 (diffFiles st disk).2)
              (diffFiles st disk).1).chunks.length) := by
          rw [_indexInner, if_neg hde]
          exact if_neg hdi
        rw [h1]
        constructor
        · refine indexChanged_chunks_other cfg textHash svc disk _ _ _
            (cleanupTxn_chunks_other cfg st _ _ hc hd) hc ?_
          intro c hcr q hq pf hpf hpf1 ch hch
          have h2 := List.mem_filter.mp hcr
          exact hids c h2.1 (by simpa using h2.2) q hq pf hpf hpf1 ch hch
        · rw [indexChanged_files_other cfg textHash svc disk _ _ hc,
            cleanupTxn_files_other cfg st _ _ hd]

/-- Witness for C4: one changed file (`a.md`) is re-indexed while the
unmodified file `b.md` keeps its chunk row and file row. -/
theorem index_frame_unmodified_witness :
    ((_indexInner ⟨true, "m", true⟩ (fun s => s) (fun _ _ => some [(1:ℚ)])
        [("a.md", ⟨"abcdefghijklmnopqrstu", "abcdefghijklmnopqrstu", 21⟩),
         ("b.md", ⟨"vwxyz", "hb", 5⟩)]
        ⟨[⟨"b.md:1-1", "b.md", "vwxyz", 1, 1, some [(2:ℚ)], "hb"⟩],
         [⟨"b.md", "hb", 5⟩], [⟨"b.md:1-1", "vwxyz"⟩], []⟩).1.chunks.filter
      (fun c => c.path == "b.md") =
        [⟨"b.md:1-1", "b.md", "vwxyz", 1, 1, some [(2:ℚ)], "hb"⟩]) ∧
    ((_indexInner ⟨true, "m", true⟩ (fun s => s) (fun _ _ => some [(1:ℚ)])
        [("a.md", ⟨"abcdefghijklmnopqrstu", "abcdefghijklmnopqrstu", 21⟩),
         ("b.md", ⟨"vwxyz", "hb", 5⟩)]
        ⟨[⟨"b.md:1-1", "b.md", "vwxyz", 1, 1, some [(2:ℚ)], "hb"⟩],
         [⟨"b.md", "hb", 5⟩], [⟨"b.md:1-1", "vwxyz"⟩], []⟩).1.files.filter
      (fun f => f.path == "b.md") = [⟨"b.md", "hb", 5⟩]) := by
  have h := (index_frame_unmodified ⟨true, "m", true⟩ (fun s => s)
      (fun _ _ => some [(1:ℚ)])
      [("a.md", ⟨"abcdefghijklmnopqrstu", "abcdefghijklmnopqrstu", 21⟩),
       ("b.md", ⟨"vwxyz", "hb", 5⟩)]
      ⟨[⟨"b.md:1-1", "b.md", "vwxyz", 1, 1, some [(2:ℚ)], "hb"⟩],
       [⟨"b.md", "hb", 5⟩], [⟨"b.md:1-1", "vwxyz"⟩], []⟩
      "b.md" (by decide)).2 (by decide) (by decide) (by decide)
  exact h

/-! ### Deletion lemmas -/

/-- Deleting a path's rows leaves no chunk row with that path. -/
lemma deleteForPath_chunks_self (cfg : EngineConfig) (st : Store) (p : String) :
    (deleteForPath cfg st p).chunks.filter (fun c => c.path == p) = [] := by
  show (st.chunks.filter fun c => !(c.path == p)).filter (fun c => c.path == p) = []
  rw [List.filter_filter, List.filter_eq_nil_iff]
  intro a _
  simp

/-- Per-path cleanup only shrinks a path's chunk rows. -/
lemma deleteForPath_chunks_sublist (cfg : EngineConfig) (st : Store) (q p : String) :
    (deleteForPath cfg st q).chunks.filter (fun c => c.path == p) <+
      st.chunks.filter fun c => c.path == p := by
  show (st.chunks.filter fun c => !(c.path == q)).filter (fun c => c.path == p) <+ _
  rw [List.filter_filter]
  exact filter_and_sublist _ _ _

/-- The cleanup fold only shrinks a path's chunk rows. -/
lemma foldl_deleteForPath_chunks_sublist (cfg : EngineConfig) (p : String) :
    ∀ (ps : List String) (st : Store),
      (ps.foldl (deleteForPath cfg) st).chunks.filter (fun c => c.path == p) <+
        st.chunks.filter fun c => c.path == p := by
  intro ps
  induction ps with
  | nil => intro st; exact List.Sublist.refl _
  | cons q qs ih =>
    intro st
    exact (ih (deleteForPath cfg st q)).trans (deleteForPath_chunks_sublist cfg st q p)

/-- After the cleanup fold, a path that was processed has no chunk rows. -/
lemma foldl_deleteForPath_chunks_mem (cfg : EngineConfig) :
    ∀ (ps : List String) (st : Store) (p : String), p ∈ ps →
      (ps.foldl (deleteForPath cfg) st).chunks.filter (fun c => c.path == p) = [] := by
  intro ps
  induction ps with
  | nil => intro st p hp; exact absurd hp (List.not_mem_nil p)
  | cons q qs ih =>
    intro st p hp
    by_cases hpq : p = q
    · subst hpq
      rw [List.foldl_cons]
      have h1 := foldl_deleteForPath_chunks_sublist cfg p qs (deleteForPath cfg st p)
      rw [deleteForPath_chunks_self cfg st p] at h1
      exact List.sublist_nil.mp h1
    · rw [List.foldl_cons]
      exact ih (deleteForPath cfg st q) p ((List.mem_cons.mp hp).resolve_left hpq)

/-- Per-path cleanup only shrinks the FTS table. -/
lemma deleteForPath_fts_sub {cfg : EngineConfig} {st : Store} {q : String} {r : FtsRow}
    (h : r ∈ (deleteForPath cfg st q).fts) : r ∈ st.fts := by
  revert h
  rw [deleteForPath]
  split
  · exact fun h => List.mem_of_mem_filter h
  · exact id

/-- The cleanup fold only shrinks the FTS table. -/
lemma foldl_deleteForPath_fts_sub (cfg : EngineConfig) :
    ∀ (ps : List String) (st : Store) (r : FtsRow),
      r ∈ (ps.foldl (deleteForPath cfg) st).fts → r ∈ st.fts := by
  intro ps
  induction ps with
  | nil => intro st r h; exact h
  | cons q qs ih =>
    intro st r h
    exact deleteForPath_fts_sub (ih (deleteForPath cfg st q) r h)

/-- After the cleanup fold (with FTS5 available), no FTS row carries the id
of a chunk row of a processed path. -/
lemma foldl_deleteForPath_fts_clean (cfg : EngineConfig) (hft : cfg.hasFts5 = true) :
    ∀ (ps : List String) (st : Store) (p : String), p ∈ ps →
      ∀ r ∈ (ps.foldl (deleteForPath cfg) st).fts,
        ∀ c ∈ st.chunks, c.path = p → r.chunkId ≠ c.id := by
  intro ps
  induction ps with
  | nil => intro st p hp; exact absurd hp (List.not_mem_nil p)
  | cons q qs ih =>
    intro st p hp r hr c hc hcp
    by_cases hpq : p = q
    · subst hpq
      rw [List.foldl_cons] at hr
      have hr1 : r ∈ (deleteForPath cfg st p).fts :=
        foldl_deleteForPath_fts_sub cfg qs (deleteForPath cfg st p) r hr
      rw [deleteForPath, hft] at hr1
      simp only [if_true] at hr1
      have h2 := (List.mem_filter.mp hr1).2
      rw [Bool.not_eq_eq_eq_not, Bool.not_true] at h2
      intro he
      have hcin : c.id ∈ (st.chunks.filter fun c => c.path == p).map (·.id) :=
        List.mem_map_of_mem _ (List.mem_filter.mpr ⟨hc, by simp [hcp]⟩)
      rw [← he] at hcin
      rw [show (((st.chunks.filter fun c => c.path == p).map (·.id)).contains r.chunkId) = true
        by simpa using hcin] at h2
      exact absurd h2 (by simp)
    · rw [List.foldl_cons] at hr
      have hc' : c ∈ (deleteForPath cfg st q).chunks := by
        show c ∈ st.chunks.filter fun c => !(c.path == q)
        refine List.mem_filter.mpr ⟨hc, ?_⟩
        have : (c.path == q) = false := beq_eq_false_iff_ne.mpr (hcp ▸ hpq)
        simp [this]
      exact ih (deleteForPath cfg st q) p ((List.mem_cons.mp hp).resolve_left hpq) r hr c hc' hcp

/-- The cleanup transaction leaves the FTS table of the fold. -/
lemma cleanupTxn_fts (cfg : EngineConfig) (st : Store) (changed deleted : List String) :
    (cleanupTxn cfg st changed deleted).fts =
      ((changed ++ deleted).foldl (deleteForPath cfg) st).fts := rfl

/-- The cleanup transaction leaves the chunk table of the fold. -/
lemma cleanupTxn_chunks (cfg : EngineConfig) (st : Store) (changed deleted : List String) :
    (cleanupTxn cfg st changed deleted).chunks =
      ((changed ++ deleted).foldl (deleteForPath cfg) st).chunks := rfl

/-- The cleanup transaction removes the file rows of deleted paths. -/
lemma cleanupTxn_files_deleted (cfg : EngineConfig) (st : Store)
    (changed deleted : List String) {p : String} (hp : p ∈ deleted) :
    (cleanupTxn cfg st changed deleted).files.filter (fun f => f.path == p) = [] := by
  rw [cleanupTxn_files, List.filter_filter, List.filter_eq_nil_iff]
  intro fr _
  by_cases hfp : fr.path = p
  · simp [hfp, hp]
  · simp [hfp]

/-- Chunk-row insertion does not touch the FTS table. -/
lemma insertChunkRow_fts (st : Store) (row : ChunkRow) :
    (insertChunkRow st row).fts = st.fts := rfl

/-- Any FTS row present after an FTS insert was present before or is the
inserted row. -/
lemma insertFts_fts_mem {cfg : EngineConfig} {st : Store} {id text : String} {r : FtsRow}
    (h : r ∈ (insertFts cfg st id text).fts) : r ∈ st.fts ∨ r = ⟨id, text⟩ := by
  revert h
  rw [insertFts]
  split
  · intro h
    rcases List.mem_append.mp h with h | h
    · exact Or.inl h
    · exact Or.inr (List.mem_singleton.mp h)
  · exact Or.inl

/-- Any FTS row present after the per-file insert fold was present before
or belongs to one of the inserted chunks. -/
lemma foldl_insert_fts_mem (cfg : EngineConfig) :
    ∀ (l : List (Chunk × Option EmbVec)) (s : Store) (r : FtsRow),
      r ∈ ((l.foldl (fun s ce =>
        insertFts cfg (insertChunkRow s (mkChunkRow ce.1 ce.2)) ce.1.id ce.1.text) s).fts) →
      r ∈ s.fts ∨ ∃ ce ∈ l, r = ⟨ce.1.id, ce.1.text⟩ := by
  intro l
  induction l with
  | nil => intro s r h; exact Or.inl h
  | cons ce l ih =>
    intro s r h
    rw [List.foldl_cons] at h
    rcases ih _ r h with h1 | h1
    · rcases insertFts_fts_mem h1 with h2 | h2
      · exact Or.inl (by rwa [insertChunkRow_fts] at h2)
      · exact Or.inr ⟨ce, List.mem_cons_self ce l, h2⟩
    · obtain ⟨ce', hce', hr⟩ := h1
      exact Or.inr ⟨ce', List.mem_cons_of_mem ce hce', hr⟩

/-- Any FTS row present after indexing one file was present before or
belongs to one of the file's new chunks. -/
lemma indexFile_fts_mem {cfg : EngineConfig} {textHash : String → String} {svc : Service}
    {st : Store} {p : String} {f : DiskFile} {r : FtsRow}
    (h : r ∈ (indexFile cfg textHash svc st p f).fts) :
    r ∈ st.fts ∨ ∃ ch ∈ chunkFile textHash f.content p, r = ⟨ch.id, ch.text⟩ := by
  rw [indexFile] at h
  rcases foldl_insert_fts_mem cfg _ _ r h with h1 | h1
  · exact Or.inl h1
  · obtain ⟨ce, hce, hr⟩ := h1
    exact Or.inr ⟨ce.1, (List.of_mem_zip hce).1, hr⟩

/-- Any FTS row present after re-indexing the changed paths was present
before or belongs to a new chunk of a changed path. -/
lemma indexChanged_fts_mem (cfg : EngineConfig) (textHash : String → String) (svc : Service)
    (disk : List (String × DiskFile)) :
    ∀ (changed : List String) (s : Store) (r : FtsRow),
      r ∈ (indexChanged cfg textHash svc disk s changed).fts →
      r ∈ s.fts ∨ ∃ q ∈ changed, ∃ f, lookupDisk disk q = some f ∧
        ∃ ch ∈ chunkFile textHash f.content q, r = ⟨ch.id, ch.text⟩ := by
  intro changed
  induction changed with
  | nil => intro s r h; exact Or.inl (by simpa [indexChanged] using h)
  | cons q qs ih =>
    intro s r h
    rw [indexChanged, List.foldl_cons] at h
    cases hf : lookupDisk disk q with
    | none =>
      rw [hf] at h
      rcases ih s r h with h1 | h1
      · exact Or.inl h1
      · obtain ⟨q', hq', rest⟩ := h1
        exact Or.inr ⟨q', List.mem_cons_of_mem q hq', rest⟩
    | some f =>
      rw [hf] at h
      rcases ih (indexFile cfg textHash svc s q f) r h with h1 | h1
      · rcases indexFile_fts_mem h1 with h2 | h2
        · exact Or.inl h2
        · exact Or.inr ⟨q, List.mem_cons_self q qs, f, hf, h2⟩
      · obtain ⟨q', hq', rest⟩ := h1
        exact Or.inr ⟨q', List.mem_cons_of_mem q hq', rest⟩

/-- C5 counterexample: when the deleted file was the last indexable file
in the workspace, `_indexInner` hits the empty-scan early return
(`if (diskFiles.size === 0) return 0`) and removes nothing: the stale
chunk, file and FTS rows all remain and the call returns `0`. -/
theorem index_deletion_counterexample :
    (diffFiles ⟨[⟨"a.md:1-1", "a.md", "abcdefghijklmnopqrstu", 1, 1, none, "h"⟩],
        [⟨"a.md", "h", 21⟩], [⟨"a.md:1-1", "abcdefghijklmnopqrstu"⟩], []⟩ []).2 = ["a.md"] ∧
    _indexInner ⟨true, "m", true⟩ (fun s => s) (fun _ _ => none) []
        ⟨[⟨"a.md:1-1", "a.md", "abcdefghijklmnopqrstu", 1, 1, none, "h"⟩],
         [⟨"a.md", "h", 21⟩], [⟨"a.md:1-1", "abcdefghijklmnopqrstu"⟩], []⟩ =
      (⟨[⟨"a.md:1-1", "a.md", "abcdefghijklmnopqrstu", 1, 1, none, "h"⟩],
        [⟨"a.md", "h", 21⟩], [⟨"a.md:1-1", "abcdefghijklmnopqrstu"⟩], []⟩, 0) := by
  decide

/-- C5 (amended): provided the disk scan still finds at least one
indexable file, re-running `index()` after deleting a previously indexed
file removes all of that file's chunk rows, its file row, and (with FTS5
available) every lexical entry carrying one of its chunk ids; when the
scan comes back empty, the pass returns `0` without removing anything. -/
theorem index_deletion_amended
    (cfg : EngineConfig) (textHash : String → String) (svc : Service)
    (disk : List (String × DiskFile)) (st : Store) (p : String)
    (hne : disk ≠ [])
    (hp : p ∈ (diffFiles st disk).2)
    (hids : ∀ c ∈ st.chunks, c.path = p → ∀ q ∈ (diffFiles st disk).1, ∀ pf ∈ disk,
      pf.1 = q → ∀ ch ∈ chunkFile textHash pf.2.content q, c.id ≠ ch.id) :
    ((_indexInner cfg textHash svc disk st).1.chunks.filter (fun c => c.path == p) = []) ∧
    ((_indexInner cfg textHash svc disk st).1.files.filter (fun f => f.path == p) = []) ∧
    (cfg.hasFts5 = true →
      ∀ r ∈ (_indexInner cfg textHash svc disk st).1.fts,
        ∀ c ∈ st.chunks, c.path = p → r.chunkId ≠ c.id) := by
  have hde : ¬(disk.isEmpty = true) := by
    cases disk with
    | nil => exact absurd rfl hne
    | cons a l => simp
  have hpnc : p ∉ (diffFiles st disk).1 := by
    intro hc
    rw [diffFiles] at hc hp
    obtain ⟨pf, hpf, hpf1⟩ := List.mem_map.mp hc
    obtain ⟨fr, hfr, hfr1⟩ := List.mem_map.mp hp
    have hprfr := (List.mem_filter.mp hfr).2
    have hany : (disk.any fun x => x.1 == fr.path) = true :=
      List.any_eq_true.mpr ⟨pf, List.mem_of_mem_filter hpf, by simp [hpf1, hfr1]⟩
    rw [hany] at hprfr
    simp at hprfr
  have hdi : ¬((diffFiles st disk).1.isEmpty = true ∧ (diffFiles st disk).2.isEmpty = true) := by
    rintro ⟨-, h2⟩
    rw [List.isEmpty_iff] at h2
    rw [h2] at hp
    exact absurd hp (List.not_mem_nil p)
  have h1 : _indexInner cfg textHash svc disk st =
      (indexChanged cfg textHash svc disk
        (cleanupTxn cfg st (diffFiles st disk).1 (diffFiles st disk).2)
        (diffFiles st disk).1,
       (indexChanged cfg textHash svc disk
        (cleanupTxn cfg st (diffFiles st disk).1 (diffFiles st disk).2)
        (diffFiles st disk).1).chunks.length) := by
    rw [_indexInner, if_neg hde]
    exact if_neg hdi
  rw [h1]
  have hmem : p ∈ (diffFiles st disk).1 ++ (diffFiles st disk).2 :=
    List.mem_append.mpr (Or.inr hp)
  refine ⟨?_, ?_, ?_⟩
  · refine indexChanged_chunks_other cfg textHash svc disk _ _ [] ?_ hpnc
      (fun c hc => absurd hc (List.not_mem_nil c))
    rw [cleanupTxn_chunks]
    exact foldl_deleteForPath_chunks_mem cfg _ st p hmem
  · rw [indexChanged_files_other cfg textHash svc disk _ _ hpnc]
    exact cleanupTxn_files_deleted cfg st _ _ hp
  · intro hft r hr c hc hcp
    rcases indexChanged_fts_mem cfg textHash svc disk _ _ r hr with h2 | h2
    · rw [cleanupTxn_fts] at h2
      exact foldl_deleteForPath_fts_clean cfg hft _ st p hmem r h2 c hc hcp
    · obtain ⟨q, hq, f, hf, ch, hch, hrch⟩ := h2
      have hne2 := hids c hc hcp q hq (q, f) (lookupDisk_mem hf) rfl ch hch
      rw [hrch]
      exact Ne.symm hne2

/-- Witness for the amended C5: deleting `b.md` while `a.md` remains on
disk removes `b.md`'s chunk row and file row. -/
theorem index_deletion_amended_witness :
    ((_indexInner ⟨true, "m", true⟩ (fun s => s) (fun _ _ => some [(1:ℚ)])
        [("a.md", ⟨"abcdefghijklmnopqrstu", "ha", 21⟩)]
        ⟨[⟨"b.md:1-1", "b.md", "vwxyz", 1, 1, some [(2:ℚ)], "hb"⟩],
         [⟨"b.md", "hb", 5⟩], [⟨"b.md:1-1", "vwxyz"⟩], []⟩).1.chunks.filter
      (fun c => c.path == "b.md") = []) ∧
    ((_indexInner ⟨true, "m", true⟩ (fun s => s) (fun _ _ => some [(1:ℚ)])
        [("a.md", ⟨"abcdefghijklmnopqrstu", "ha", 21⟩)]
        ⟨[⟨"b.md:1-1", "b.md", "vwxyz", 1, 1, some [(2:ℚ)], "hb"⟩],
         [⟨"b.md", "hb", 5⟩], [⟨"b.md:1-1", "vwxyz"⟩], []⟩).1.files.filter
      (fun f => f.path == "b.md") = []) := by
  have h := index_deletion_amended ⟨true, "m", true⟩ (fun s => s) (fun _ _ => some [(1:ℚ)])
      [("a.md", ⟨"abcdefghijklmnopqrstu", "ha", 21⟩)]
      ⟨[⟨"b.md:1-1", "b.md", "vwxyz", 1, 1, some [(2:ℚ)], "hb"⟩],
       [⟨"b.md", "hb", 5⟩], [⟨"b.md:1-1", "vwxyz"⟩], []⟩
      "b.md" (by decide) (by decide) (by decide)
  exact ⟨h.1, h.2.1⟩

/-! ### Per-file insertion and embedding-failure lemmas -/

/-- `pushChunk` records the content hash of each emitted chunk. -/
lemma pushChunk_hash (textHash : String → String) (path : String) (acc : ChunkAcc)
    (hacc : ∀ c ∈ acc.chunks, textHash c.text = c.hash) :
    ∀ c ∈ (pushChunk textHash path acc).chunks, textHash c.text = c.hash := by
  intro c hc
  simp only [pushChunk] at hc
  by_cases hlt : trimmedLen (joinLines acc.buf) < 20
  · rw [if_pos hlt] at hc; exact hacc c hc
  · rw [if_neg hlt] at hc
    rcases List.mem_append.mp hc with hc | hc
    · exact hacc c hc
    · rw [List.mem_singleton] at hc; subst hc; rfl

set_option maxHeartbeats 1000000 in
/-- One chunking-loop step records content hashes. -/
lemma chunkStep_hash (textHash : String → String) (path line : String) (acc : ChunkAcc)
    (hacc : ∀ c ∈ acc.chunks, textHash c.text = c.hash) :
    ∀ c ∈ (chunkStep textHash path acc line).chunks, textHash c.text = c.hash := by
  simp only [chunkStep]
  split <;> split <;>
    first
      | exact pushChunk_hash _ _ _ (pushChunk_hash _ _ _ hacc)
      | exact pushChunk_hash _ _ _ hacc
      | exact hacc

/-- Every chunk's `hash` field is the content hash of its text. -/
lemma chunkFile_hash (textHash : String → String) (content path : String) :
    ∀ c ∈ chunkFile textHash content path, textHash c.text = c.hash := by
  have hloop : ∀ (lines : List String) (acc : ChunkAcc),
      (∀ c ∈ acc.chunks, textHash c.text = c.hash) →
      ∀ c ∈ (lines.foldl (chunkStep textHash path) acc).chunks, textHash c.text = c.hash := by
    intro lines
    induction lines with
    | nil => intro acc hacc; simpa using hacc
    | cons l ls ih => intro acc hacc; exact ih _ (chunkStep_hash textHash path l acc hacc)
  intro c hc
  rw [chunkFile] at hc
  split at hc
  · rcases List.mem_append.mp hc with hc | hc
    · exact hloop _ _ (by simp) c hc
    · rw [List.mem_singleton] at hc; subst hc; rfl
  · exact hloop _ _ (by simp) c hc

/-- The embedding loop returns one outcome per chunk. -/
lemma embedChunks_length (cfg : EngineConfig) (textHash : String → String) (svc : Service) :
    ∀ (cs : List Chunk) (cache : List CacheRow),
      (embedChunks cfg textHash svc cache cs).1.length = cs.length := by
  intro cs
  induction cs with
  | nil => intro cache; rfl
  | cons c cs ih =>
    intro cache
    rw [embedChunks]
    cases getCached cache c.hash cfg.model with
    | some v => simpa using ih cache
    | none => simpa using ih _

/-- Pairing a list with an equally long list covers every element. -/
lemma exists_zip_pair {α β : Type} :
    ∀ {l₁ : List α} {l₂ : List β}, l₂.length = l₁.length →
      ∀ {a}, a ∈ l₁ → ∃ b, (a, b) ∈ l₁.zip l₂ := by
  intro l₁
  induction l₁ with
  | nil => intro l₂ _ a ha; exact absurd ha (List.not_mem_nil a)
  | cons x xs ih =>
    intro l₂ hlen a ha
    cases l₂ with
    | nil => simp at hlen
    | cons y ys =>
      rcases List.mem_cons.mp ha with rfl | ha'
      · exact ⟨y, List.mem_cons_self _ _⟩
      · obtain ⟨b, hb⟩ := ih (by simpa using hlen) ha'
        exact ⟨b, List.mem_cons_of_mem _ hb⟩

/-- Inserting a chunk row of the target path with a fresh id appends it to
the path's rows. -/
lemma insertChunkRow_chunks_self (st : Store) (row : ChunkRow) {p : String}
    (hpath : row.path = p)
    (hid : ∀ c ∈ st.chunks, c.path = p → c.id ≠ row.id) :
    (insertChunkRow st row).chunks.filter (fun c => c.path == p) =
      (st.chunks.filter fun c => c.path == p) ++ [row] := by
  show ((st.chunks.filter fun c => !(c.id == row.id)) ++ [row]).filter
      (fun c => c.path == p) = _
  rw [List.filter_append, List.filter_filter]
  have h1 : [row].filter (fun c => c.path == p) = [row] := by
    simp [List.filter_cons, hpath]
  rw [h1]
  congr 1
  refine List.filter_congr fun c hc => ?_
  by_cases hcp : c.path = p
  · have : (c.id == row.id) = false := beq_eq_false_iff_ne.mpr (hid c hc hcp)
    simp [hcp, this]
  · simp [hcp]

/-- The per-file insert fold writes exactly one chunk row per
(chunk, embedding) pair, in order. -/
lemma foldl_insert_chunks_self (cfg : EngineConfig) {p : String} :
    ∀ (l : List (Chunk × Option EmbVec)) (s : Store) (rowsAcc : List ChunkRow),
      s.chunks.filter (fun c => c.path == p) = rowsAcc →
      (∀ ce ∈ l, ce.1.path = p) →
      (l.map fun ce => ce.1.id).Nodup →
      (∀ r ∈ rowsAcc, ∀ ce ∈ l, r.id ≠ ce.1.id) →
      ((l.foldl (fun s ce =>
          insertFts cfg (insertChunkRow s (mkChunkRow ce.1 ce.2)) ce.1.id ce.1.text) s).chunks.filter
        (fun c => c.path == p)) = rowsAcc ++ l.map (fun ce => mkChunkRow ce.1 ce.2) := by
  intro l
  induction l with
  | nil => intro s rowsAcc hs _ _ _; simpa using hs
  | cons ce l ih =>
    intro s rowsAcc hs hpaths hnodup hfresh
    rw [List.foldl_cons]
    have hstep : (insertFts cfg (insertChunkRow s (mkChunkRow ce.1 ce.2))
        ce.1.id ce.1.text).chunks.filter (fun c => c.path == p) = rowsAcc ++ [mkChunkRow ce.1 ce.2] := by
      rw [insertFts_chunks]
      rw [← hs]
      refine insertChunkRow_chunks_self s _ (hpaths ce (List.mem_cons_self ce l)) ?_
      intro c hcs hcp
      have hcrows : c ∈ rowsAcc := by
        rw [← hs]
        exact List.mem_filter.mpr ⟨hcs, by simp [hcp]⟩
      exact hfresh c hcrows ce (List.mem_cons_self ce l)
    rw [List.map_cons] at hnodup ⊢
    have hnodup2 := List.nodup_cons.mp hnodup
    have h2 := ih _ (rowsAcc ++ [mkChunkRow ce.1 ce.2]) hstep
      (fun ce' h => hpaths ce' (List.mem_cons_of_mem ce h)) hnodup2.2 ?_
    · rw [h2, List.append_assoc]
      rfl
    · intro r hr ce' hce'
      rcases List.mem_append.mp hr with hr1 | hr1
      · exact hfresh r hr1 ce' (List.mem_cons_of_mem ce hce')
      · rw [List.mem_singleton] at hr1
        subst hr1
        show ce.1.id ≠ ce'.1.id
        intro he
        exact hnodup2.1 (he ▸ List.mem_map_of_mem (fun ce => ce.1.id) hce')

/-- FTS insertion keeps previously present rows. -/
lemma foldl_insert_fts_mono (cfg : EngineConfig) :
    ∀ (l : List (Chunk × Option EmbVec)) (s : Store) {r : FtsRow}, r ∈ s.fts →
      r ∈ (l.foldl (fun s ce =>
        insertFts cfg (insertChunkRow s (mkChunkRow ce.1 ce.2)) ce.1.id ce.1.text) s).fts := by
  intro l
  induction l with
  | nil => intro s r h; exact h
  | cons ce l ih =>
    intro s r h
    rw [List.foldl_cons]
    refine ih _ ?_
    rw [show (insertFts cfg (insertChunkRow s (mkChunkRow ce.1 ce.2)) ce.1.id ce.1.text).fts =
      if cfg.hasFts5 then (insertChunkRow s (mkChunkRow ce.1 ce.2)).fts ++
        [⟨ce.1.id, ce.1.text⟩] else (insertChunkRow s (mkChunkRow ce.1 ce.2)).fts from by
      rw [insertFts]; split <;> simp_all]
    split
    · exact List.mem_append_left _ (by rwa [insertChunkRow_fts])
    · rwa [insertChunkRow_fts]

/-- With FTS5 available, the per-file insert fold records an FTS row for
every inserted chunk. -/
lemma foldl_insert_fts_all (cfg : EngineConfig) (hft : cfg.hasFts5 = true) :
    ∀ (l : List (Chunk × Option EmbVec)) (s : Store) (ce : Chunk × Option EmbVec), ce ∈ l →
      (⟨ce.1.id, ce.1.text⟩ : FtsRow) ∈ (l.foldl (fun s ce =>
        insertFts cfg (insertChunkRow s (mkChunkRow ce.1 ce.2)) ce.1.id ce.1.text) s).fts := by
  intro l
  induction l with
  | nil => intro s ce h; exact absurd h (List.not_mem_nil ce)
  | cons ce0 l ih =>
    intro s ce h
    rcases List.mem_cons.mp h with rfl | h'
    · rw [List.foldl_cons]
      refine foldl_insert_fts_mono cfg l _ ?_
      rw [insertFts, if_pos hft]
      exact List.mem_append_right _ (List.mem_singleton.mpr rfl)
    · rw [List.foldl_cons]
      exact ih _ ce h'

/-- On a cache miss with a failing service, the per-chunk embedding loop
records `none` for that chunk (no intra-file hash alias succeeds either). -/
lemma embedChunks_fail (cfg : EngineConfig) (textHash : String → String) (svc : Service)
    (hkey : cfg.apiKeySet = true) :
    ∀ (cs : List Chunk) (cache : List CacheRow) (ch : Chunk) (e : Option EmbVec),
      (ch, e) ∈ cs.zip (embedChunks cfg textHash svc cache cs).1 →
      getCached cache ch.hash cfg.model = none →
      attemptLoop svc (ch.text.take 1024) = none →
      (∀ c' ∈ cs, textHash c'.text = c'.hash) →
      (∀ c' ∈ cs, c'.hash = ch.hash → c'.text.take 1024 = ch.text.take 1024) →
      e = none := by
  intro cs
  induction cs with
  | nil => intro cache ch e h _ _ _ _; simp [embedChunks] at h
  | cons c cs ih =>
    intro cache ch e hmem hmiss hfail hhash halias
    rw [embedChunks] at hmem
    cases hc : getCached cache c.hash cfg.model with
    | some v =>
      rw [hc] at hmem
      simp only [List.zip_cons_cons, List.mem_cons] at hmem
      rcases hmem with heq | hmem2
      · injection heq with h1 h2
        subst h1
        rw [hc] at hmiss
        exact Option.noConfusion hmiss
      · exact ih cache ch e hmem2 hmiss hfail
          (fun c2 h => hhash c2 (List.mem_cons_of_mem c h))
          (fun c2 h => halias c2 (List.mem_cons_of_mem c h))
    | none =>
      rw [hc] at hmem
      simp only [List.zip_cons_cons, List.mem_cons] at hmem
      have hhc : textHash c.text = c.hash := hhash c (List.mem_cons_self c cs)
      rcases hmem with heq | hmem2
      · injection heq with h1 h2
        subst h1
        have hmiss2 : getCached cache (textHash ch.text) cfg.model = none := by
          rw [hhc]
          exact hmiss
        rw [h2, embedOne_miss hkey hmiss2, hfail]
      · refine ih (embedOne cfg textHash svc cache c.text).cache ch e hmem2 ?_ hfail
          (fun c2 h => hhash c2 (List.mem_cons_of_mem c h))
          (fun c2 h => halias c2 (List.mem_cons_of_mem c h))
        have hm0 : getCached cache (textHash c.text) cfg.model = none := by
          rw [hhc]
          exact hc
        rw [embedOne_miss hkey hm0]
        cases hA : attemptLoop svc (c.text.take 1024) with
        | none => exact hmiss
        | some vn =>
          obtain ⟨v, n⟩ := vn
          by_cases hcc : c.hash = ch.hash
          · exfalso
            rw [halias c (List.mem_cons_self c cs) hcc, hfail] at hA
            exact Option.noConfusion hA
          · show getCached (cacheInsert cache (textHash c.text) cfg.model v)
              ch.hash cfg.model = none
            rw [hhc, getCached_cacheInsert_ne cache cfg.model v
              (fun h => hcc h.symm)]
            exact hmiss

/-- C7: a persistent embedding failure never aborts the encompassing
operation. During an index pass re-indexing file `p`: every chunk of `p`
is stored, each with its computed embedding outcome (conjunct 1); with
FTS5 available every chunk also gets its lexical entry, embedding outcomes
notwithstanding (conjunct 2); and a chunk whose embedding fails after all
retries (cache miss, service failing on its truncated text) is stored with
a null vector (conjunct 3). During search, a failed query embedding
degrades scoring to the keyword score alone — the vector term contributes
nothing and the call still returns a result list (conjunct 4). -/
theorem embed_failure_never_aborts
    (cfg : EngineConfig) (textHash : String → String) (svc : Service)
    (disk : List (String × DiskFile)) (st : Store) (p : String) (f : DiskFile)
    (hchanged : (diffFiles st disk).1 = [p])
    (hf : lookupDisk disk p = some f)
    (hnodup : ((chunkFile textHash f.content p).map (·.id)).Nodup) :
    ((_indexInner cfg textHash svc disk st).1.chunks.filter (fun c => c.path == p) =
      ((chunkFile textHash f.content p).zip
        (embedChunks cfg textHash svc st.cache (chunkFile textHash f.content p)).1).map
        fun ce => mkChunkRow ce.1 ce.2) ∧
    (cfg.hasFts5 = true → ∀ ch ∈ chunkFile textHash f.content p,
      (⟨ch.id, ch.text⟩ : FtsRow) ∈ (_indexInner cfg textHash svc disk st).1.fts) ∧
    (∀ ch e, (ch, e) ∈ (chunkFile textHash f.content p).zip
        (embedChunks cfg textHash svc st.cache (chunkFile textHash f.content p)).1 →
      cfg.apiKeySet = true →
      getCached st.cache ch.hash cfg.model = none →
      attemptLoop svc (ch.text.take 1024) = none →
      (∀ c' ∈ chunkFile textHash f.content p, c'.hash = ch.hash →
        c'.text.take 1024 = ch.text.take 1024) →
      e = none) ∧
    (∀ (ftsRows : List (String × ℝ)) (query : String) (rows : List SearchRow),
      (scoredList none ftsRows query rows).map SearchResult.score =
        rows.map (keywordScore ftsRows (if ftsRows = [] then tokensOf query else []))) := by
  have hde : ¬(disk.isEmpty = true) := by
    cases disk with
    | nil => rw [diffFiles] at hchanged; simp at hchanged
    | cons a l => simp
  have hdi : ¬((diffFiles st disk).1.isEmpty = true ∧ (diffFiles st disk).2.isEmpty = true) := by
    rintro ⟨h1, -⟩
    rw [hchanged] at h1
    simp at h1
  have h1 : _indexInner cfg textHash svc disk st =
      (indexChanged cfg textHash svc disk
        (cleanupTxn cfg st (diffFiles st disk).1 (diffFiles st disk).2)
        (diffFiles st disk).1,
       (indexChanged cfg textHash svc disk
        (cleanupTxn cfg st (diffFiles st disk).1 (diffFiles st disk).2)
        (diffFiles st disk).1).chunks.length) := by
    rw [_indexInner, if_neg hde]
    exact if_neg hdi
  set st1 := cleanupTxn cfg st (diffFiles st disk).1 (diffFiles st disk).2 with hst1
  have hstep : indexChanged cfg textHash svc disk st1 (diffFiles st disk).1 =
      indexFile cfg textHash svc st1 p f := by
    rw [hchanged, indexChanged, List.foldl_cons, hf, List.foldl_nil]
  have hcache : st1.cache = st.cache := cleanupTxn_cache cfg st _ _
  have hlen := embedChunks_length cfg textHash svc (chunkFile textHash f.content p) st.cache
  have hclean : st1.chunks.filter (fun c => c.path == p) = [] := by
    rw [hst1, cleanupTxn_chunks]
    refine foldl_deleteForPath_chunks_mem cfg _ st p ?_
    rw [hchanged]
    exact List.mem_append_left _ (List.mem_cons_self p [])
  have hfile : indexFile cfg textHash svc st1 p f =
      writeFileTxn cfg { st1 with cache :=
          (embedChunks cfg textHash svc st.cache (chunkFile textHash f.content p)).2.1 }
        p f.hash f.size (chunkFile textHash f.content p)
        (embedChunks cfg textHash svc st.cache (chunkFile textHash f.content p)).1 := by
    rw [indexFile, hcache]
  have hids_zip : (((chunkFile textHash f.content p).zip
      (embedChunks cfg textHash svc st.cache (chunkFile textHash f.content p)).1).map
      fun ce => ce.1.id).Nodup := by
    have hfst : ((chunkFile textHash f.content p).zip
        (embedChunks cfg textHash svc st.cache (chunkFile textHash f.content p)).1).map
        Prod.fst = chunkFile textHash f.content p :=
      List.map_fst_zip _ _ (le_of_eq hlen.symm)
    have heq2 : (((chunkFile textHash f.content p).zip
        (embedChunks cfg textHash svc st.cache (chunkFile textHash f.content p)).1).map
        fun ce => ce.1.id) =
        (((chunkFile textHash f.content p).zip
          (embedChunks cfg textHash svc st.cache (chunkFile textHash f.content p)).1).map
          Prod.fst).map (·.id) := by
      rw [List.map_map]
      rfl
    rw [heq2, hfst]
    exact hnodup
  refine ⟨?_, ?_, ?_, ?_⟩
  · rw [h1]
    show (indexChanged cfg textHash svc disk st1 (diffFiles st disk).1).chunks.filter
      (fun c => c.path == p) = _
    rw [hstep, hfile]
    have hmain := foldl_insert_chunks_self cfg
      ((chunkFile textHash f.content p).zip
        (embedChunks cfg textHash svc st.cache (chunkFile textHash f.content p)).1)
      { st1 with cache :=
          (embedChunks cfg textHash svc st.cache (chunkFile textHash f.content p)).2.1 }
      [] hclean
      (fun ce hce => chunkFile_path textHash f.content p ce.1 (List.of_mem_zip hce).1)
      hids_zip (fun r hr => absurd hr (List.not_mem_nil r))
    simpa using hmain
  · intro hft ch hch
    rw [h1]
    show (⟨ch.id, ch.text⟩ : FtsRow) ∈
      (indexChanged cfg textHash svc disk st1 (diffFiles st disk).1).fts
    rw [hstep, hfile]
    obtain ⟨e, he⟩ := exists_zip_pair hlen hch
    exact foldl_insert_fts_all cfg hft _ _ (ch, e) he
  · intro ch e hmem hkey hmiss hfail halias
    exact embedChunks_fail cfg textHash svc hkey _ st.cache ch e hmem hmiss hfail
      (chunkFile_hash textHash f.content p) halias
  · intro ftsRows query rows
    rw [scoredList, List.map_map]
    rfl

/-- Witness for C7: a one-chunk file whose embedding fails on every
attempt is still stored and still gets its FTS entry. -/
theorem embed_failure_never_aborts_witness :
    ((_indexInner ⟨true, "m", true⟩ (fun s => s) (fun _ _ => none)
        [("a.md", ⟨"abcdefghijklmnopqrstu", "abcdefghijklmnopqrstu", 21⟩)]
        ⟨[], [], [], []⟩).1.chunks.filter (fun c => c.path == "a.md") =
      ((chunkFile (fun s => s) "abcdefghijklmnopqrstu" "a.md").zip
        (embedChunks ⟨true, "m", true⟩ (fun s => s) (fun _ _ => none) []
          (chunkFile (fun s => s) "abcdefghijklmnopqrstu" "a.md")).1).map
        fun ce => mkChunkRow ce.1 ce.2) ∧
    ((⟨"a.md:1-1", "abcdefghijklmnopqrstu"⟩ : FtsRow) ∈
      (_indexInner ⟨true, "m", true⟩ (fun s => s) (fun _ _ => none)
        [("a.md", ⟨"abcdefghijklmnopqrstu", "abcdefghijklmnopqrstu", 21⟩)]
        ⟨[], [], [], []⟩).1.fts) := by
  have h := embed_failure_never_aborts ⟨true, "m", true⟩ (fun s => s) (fun _ _ => none)
      [("a.md", ⟨"abcdefghijklmnopqrstu", "abcdefghijklmnopqrstu", 21⟩)]
      ⟨[], [], [], []⟩ "a.md" ⟨"abcdefghijklmnopqrstu", "abcdefghijklmnopqrstu", 21⟩
      (by decide) (by decide) (by decide)
  exact ⟨h.1, h.2.1 rfl ⟨"a.md:1-1", "a.md", "abcdefghijklmnopqrstu", 1, 1,
    "abcdefghijklmnopqrstu"⟩ (by decide)⟩

/-! ### Transaction-boundary lemmas for the atomicity claim -/

/-- The boundary-state fold computes the same final store as the indexing
fold, and (when it added any state) its last recorded state is that final
store. -/
lemma fileStates_fold_spec (cfg : EngineConfig) (textHash : String → String) (svc : Service)
    (disk : List (String × DiskFile)) :
    ∀ (qs : List String) (s0 : Store) (l0 : List Store),
      (qs.foldl (fileStatesStep cfg textHash svc disk) (s0, l0)).1 =
        indexChanged cfg textHash svc disk s0 qs ∧
      ((qs.foldl (fileStatesStep cfg textHash svc disk) (s0, l0)).2 = l0 ∧
          indexChanged cfg textHash svc disk s0 qs = s0 ∨
        (qs.foldl (fileStatesStep cfg textHash svc disk) (s0, l0)).2.getLast? =
          some (indexChanged cfg textHash svc disk s0 qs)) := by
  intro qs
  induction qs with
  | nil => intro s0 l0; exact ⟨rfl, Or.inl ⟨rfl, rfl⟩⟩
  | cons q qs ih =>
    intro s0 l0
    cases hf : lookupDisk disk q with
    | none =>
      have hstep : fileStatesStep cfg textHash svc disk (s0, l0) q = (s0, l0) := by
        rw [fileStatesStep, hf]
      have hchg : indexChanged cfg textHash svc disk s0 (q :: qs) =
          indexChanged cfg textHash svc disk s0 qs := by
        rw [indexChanged, List.foldl_cons, hf]
        rfl
      rw [List.foldl_cons, hstep, hchg]
      exact ih s0 l0
    | some f =>
      have hstep : fileStatesStep cfg textHash svc disk (s0, l0) q =
          (indexFile cfg textHash svc s0 q f,
           l0 ++ [{ s0 with cache := (embedChunks cfg textHash svc s0.cache
               (chunkFile textHash f.content q)).2.1 },
             indexFile cfg textHash svc s0 q f]) := by
        rw [fileStatesStep, hf]
        rfl
      have hchg : indexChanged cfg textHash svc disk s0 (q :: qs) =
          indexChanged cfg textHash svc disk (indexFile cfg textHash svc s0 q f) qs := by
        rw [indexChanged, List.foldl_cons, hf]
        rfl
      rw [List.foldl_cons, hstep, hchg]
      obtain ⟨ih1, ih2⟩ := ih (indexFile cfg textHash svc s0 q f)
        (l0 ++ [{ s0 with cache := (embedChunks cfg textHash svc s0.cache
            (chunkFile textHash f.content q)).2.1 },
          indexFile cfg textHash svc s0 q f])
      refine ⟨ih1, Or.inr ?_⟩
      rcases ih2 with ⟨h2a, h2b⟩ | h2
      · rw [h2a, h2b]
        rw [show ∀ (l : List Store) (a b : Store), l ++ [a, b] = (l ++ [a]) ++ [b] from
          fun l a b => by rw [List.append_assoc]; rfl]
        exact List.getLast?_concat _
      · exact h2

/-- The last boundary state of an index pass is the final store. -/
lemma indexStates_last (cfg : EngineConfig) (textHash : String → String) (svc : Service)
    (disk : List (String × DiskFile)) (st : Store) :
    (indexStates cfg textHash svc disk st).getLast? =
      some ((_indexInner cfg textHash svc disk st).1) := by
  by_cases hde : disk.isEmpty
  · have h1 : indexStates cfg textHash svc disk st = [st] := by
      rw [indexStates, if_pos hde]
    have h2 : _indexInner cfg textHash svc disk st = (st, 0) := by
      rw [_indexInner, if_pos hde]
    rw [h1, h2]
    rfl
  · by_cases hdi : (diffFiles st disk).1.isEmpty ∧ (diffFiles st disk).2.isEmpty
    · have h1 : indexStates cfg textHash svc disk st = [st] := by
        rw [indexStates, if_neg hde]
        exact if_pos hdi
      have h2 : _indexInner cfg textHash svc disk st = (st, st.chunks.length) := by
        rw [_indexInner, if_neg hde]
        exact if_pos hdi
      rw [h1, h2]
      rfl
    · have h1 : indexStates cfg textHash svc disk st =
          st :: cleanupTxn cfg st (diffFiles st disk).1 (diffFiles st disk).2 ::
            ((diffFiles st disk).1.foldl (fileStatesStep cfg textHash svc disk)
              (cleanupTxn cfg st (diffFiles st disk).1 (diffFiles st disk).2, [])).2 := by
        rw [indexStates, if_neg hde]
        exact if_neg hdi
      have h2 : _indexInner cfg textHash svc disk st =
          (indexChanged cfg textHash svc disk
            (cleanupTxn cfg st (diffFiles st disk).1 (diffFiles st disk).2)
            (diffFiles st disk).1,
           (indexChanged cfg textHash svc disk
            (cleanupTxn cfg st (diffFiles st disk).1 (diffFiles st disk).2)
            (diffFiles st disk).1).chunks.length) := by
        rw [_indexInner, if_neg hde]
        exact if_neg hdi
      rw [h1, h2]
      obtain ⟨-, hsnd⟩ := fileStates_fold_spec cfg textHash svc disk (diffFiles st disk).1
        (cleanupTxn cfg st (diffFiles st disk).1 (diffFiles st disk).2) []
      rcases hsnd with ⟨ha, hb⟩ | h
      · rw [ha, hb]
        rfl
      · cases hfold : ((diffFiles st disk).1.foldl (fileStatesStep cfg textHash svc disk)
            (cleanupTxn cfg st (diffFiles st disk).1 (diffFiles st disk).2, [])).2 with
        | nil => rw [hfold] at h; exact absurd h (by simp)
        | cons a l =>
          rw [hfold] at h
          rw [List.getLast?_cons_cons, List.getLast?_cons_cons]
          exact h

/-- A changed file's chunk-row set at a transaction boundary: empty, or
exactly its freshly chunked rows for some embedding outcomes. -/
def chunksEmptyOrNew (textHash : String → String) (p : String) (f : DiskFile)
    (s : Store) : Prop :=
  s.chunks.filter (fun c => c.path == p) = [] ∨
  ∃ embs, s.chunks.filter (fun c => c.path == p) =
    ((chunkFile textHash f.content p).zip embs).map fun ce => mkChunkRow ce.1 ce.2

/-- Through the per-file transactions, a changed path's chunk-row set is
always empty or exactly its new rows — never a mixture. -/
lemma fileStates_no_mix (cfg : EngineConfig) (textHash : String → String) (svc : Service)
    (disk : List (String × DiskFile)) (p : String) (f : DiskFile)
    (hf : lookupDisk disk p = some f)
    (hnodupids : ((chunkFile textHash f.content p).map (·.id)).Nodup) :
    ∀ (qs : List String) (s0 : Store) (l0 : List Store),
      qs.Nodup →
      (∀ q ∈ qs, q ≠ p → ∀ pfq ∈ disk, pfq.1 = q →
        ∀ ch ∈ chunkFile textHash f.content p, ∀ ch' ∈ chunkFile textHash pfq.2.content q,
          ch.id ≠ ch'.id) →
      chunksEmptyOrNew textHash p f s0 →
      (p ∈ qs → s0.chunks.filter (fun c => c.path == p) = []) →
      chunksEmptyOrNew textHash p f
        (qs.foldl (fileStatesStep cfg textHash svc disk) (s0, l0)).1 ∧
      ∀ s ∈ (qs.foldl (fileStatesStep cfg textHash svc disk) (s0, l0)).2,
        s ∈ l0 ∨ chunksEmptyOrNew textHash p f s := by
  intro qs
  induction qs with
  | nil => intro s0 l0 _ _ hInv _; exact ⟨hInv, fun s hs => Or.inl hs⟩
  | cons q qs ih =>
    intro s0 l0 hnodup hq hInv hpcond
    have hnodup2 := List.nodup_cons.mp hnodup
    cases hfq : lookupDisk disk q with
    | none =>
      have hstep : fileStatesStep cfg textHash svc disk (s0, l0) q = (s0, l0) := by
        rw [fileStatesStep, hfq]
      rw [List.foldl_cons, hstep]
      refine ih s0 l0 hnodup2.2 (fun r hr => hq r (List.mem_cons_of_mem q hr)) hInv ?_
      intro hpqs
      exact hpcond (List.mem_cons_of_mem q hpqs)
    | some fq =>
      have hcacheInv : chunksEmptyOrNew textHash p f
          { s0 with cache := (embedChunks cfg textHash svc s0.cache
            (chunkFile textHash fq.content q)).2.1 } := hInv
      by_cases hqp : q = p
      · subst hqp
        have hfqf : fq = f := by
          rw [hf] at hfq
          injection hfq with h
          exact h.symm
        subst hfqf
        have hempty : s0.chunks.filter (fun c => c.path == q) = [] :=
          hpcond (List.mem_cons_self q qs)
        have hnew : chunksEmptyOrNew textHash q fq
            (indexFile cfg textHash svc s0 q fq) := by
          right
          refine ⟨(embedChunks cfg textHash svc s0.cache
            (chunkFile textHash fq.content q)).1, ?_⟩
          rw [indexFile]
          have hlen := embedChunks_length cfg textHash svc
            (chunkFile textHash fq.content q) s0.cache
          have hfst : ((chunkFile textHash fq.content q).zip
              (embedChunks cfg textHash svc s0.cache
                (chunkFile textHash fq.content q)).1).map Prod.fst =
              chunkFile textHash fq.content q :=
            List.map_fst_zip _ _ (le_of_eq hlen.symm)
          have hids : (((chunkFile textHash fq.content q).zip
              (embedChunks cfg textHash svc s0.cache
                (chunkFile textHash fq.content q)).1).map fun ce => ce.1.id).Nodup := by
            have heq2 : (((chunkFile textHash fq.content q).zip
                (embedChunks cfg textHash svc s0.cache
                  (chunkFile textHash fq.content q)).1).map fun ce => ce.1.id) =
                (((chunkFile textHash fq.content q).zip
                  (embedChunks cfg textHash svc s0.cache
                    (chunkFile textHash fq.content q)).1).map Prod.fst).map (·.id) := by
              rw [List.map_map]
              rfl
            rw [heq2, hfst]
            exact hnodupids
          have hmain := foldl_insert_chunks_self cfg
            ((chunkFile textHash fq.content q).zip
              (embedChunks cfg textHash svc s0.cache
                (chunkFile textHash fq.content q)).1)
            { s0 with cache := (embedChunks cfg textHash svc s0.cache
                (chunkFile textHash fq.content q)).2.1 }
            [] hempty
            (fun ce hce => chunkFile_path textHash fq.content q ce.1 (List.of_mem_zip hce).1)
            hids (fun r hr => absurd hr (List.not_mem_nil r))
          simpa using hmain
        rw [List.foldl_cons,
          show fileStatesStep cfg textHash svc disk (s0, l0) q =
            (indexFile cfg textHash svc s0 q fq,
             l0 ++ [{ s0 with cache := (embedChunks cfg textHash svc s0.cache
                 (chunkFile textHash fq.content q)).2.1 },
               indexFile cfg textHash svc s0 q fq]) from by rw [fileStatesStep, hfq]; rfl]
        obtain ⟨ihInv, ihmem⟩ := ih (indexFile cfg textHash svc s0 q fq) _
          hnodup2.2 (fun r hr => hq r (List.mem_cons_of_mem q hr)) hnew
          (fun hpqs => absurd hpqs hnodup2.1)
        refine ⟨ihInv, ?_⟩
        intro s hs
        rcases ihmem s hs with hmem | hmem
        · rcases List.mem_append.mp hmem with hmem | hmem
          · exact Or.inl hmem
          · rcases List.mem_cons.mp hmem with rfl | hmem
            · exact Or.inr hcacheInv
            · rw [List.mem_singleton.mp hmem]
              exact Or.inr hnew
        · exact Or.inr hmem
      · have hpres : (indexFile cfg textHash svc s0 q fq).chunks.filter
            (fun c => c.path == p) = s0.chunks.filter (fun c => c.path == p) := by
          refine indexFile_chunks_other cfg textHash svc s0 q fq hqp ?_
          intro c hcs hcp ch' hch'
          rcases hInv with hInv | ⟨embs, hInv⟩
          · exfalso
            have : c ∈ s0.chunks.filter (fun c => c.path == p) :=
              List.mem_filter.mpr ⟨hcs, by simp [hcp]⟩
            rw [hInv] at this
            exact absurd this (List.not_mem_nil c)
          · have hcmem : c ∈ ((chunkFile textHash f.content p).zip embs).map
                (fun ce => mkChunkRow ce.1 ce.2) := by
              rw [← hInv]
              exact List.mem_filter.mpr ⟨hcs, by simp [hcp]⟩
            obtain ⟨ce, hce, hc⟩ := List.mem_map.mp hcmem
            have hcid : c.id = ce.1.id := by rw [← hc]; rfl
            rw [hcid]
            exact hq q (List.mem_cons_self q qs) hqp (q, fq) (lookupDisk_mem hfq) rfl
              ce.1 (List.of_mem_zip hce).1 ch' hch'
        have hnewInv : chunksEmptyOrNew textHash p f (indexFile cfg textHash svc s0 q fq) := by
          rcases hInv with hInv | ⟨embs, hInv⟩
          · exact Or.inl (by rw [hpres]; exact hInv)
          · exact Or.inr ⟨embs, by rw [hpres]; exact hInv⟩
        rw [List.foldl_cons,
          show fileStatesStep cfg textHash svc disk (s0, l0) q =
            (indexFile cfg textHash svc s0 q fq,
             l0 ++ [{ s0 with cache := (embedChunks cfg textHash svc s0.cache
                 (chunkFile textHash fq.content q)).2.1 },
               indexFile cfg textHash svc s0 q fq]) from by rw [fileStatesStep, hfq]; rfl]
        obtain ⟨ihInv, ihmem⟩ := ih (indexFile cfg textHash svc s0 q fq) _
          hnodup2.2 (fun r hr => hq r (List.mem_cons_of_mem q hr)) hnewInv
          (fun hpqs => by rw [hpres]; exact hpcond (List.mem_cons_of_mem q hpqs))
        refine ⟨ihInv, ?_⟩
        intro s hs
        rcases ihmem s hs with hmem | hmem
        · rcases List.mem_append.mp hmem with hmem | hmem
          · exact Or.inl hmem
          · rcases List.mem_cons.mp hmem with rfl | hmem
            · exact Or.inr hcacheInv
            · rw [List.mem_singleton.mp hmem]
              exact Or.inr hnewInv
        · exact Or.inr hmem

/-- Changed paths are duplicate-free when the disk keys are. -/
lemma diffFiles_changed_nodup (st : Store) (disk : List (String × DiskFile))
    (hdisk : (disk.map Prod.fst).Nodup) : (diffFiles st disk).1.Nodup := by
  rw [diffFiles]
  exact hdisk.sublist ((List.filter_sublist disk).map Prod.fst)

/-- C8 counterexample: re-indexing one changed file commits its writes in
two separate transactions, with the embedding-cache write in between. At
the boundary after the first (cleanup) transaction — the second store in
the list below — the file's old chunk and FTS rows are already deleted
while its new rows are absent and its file row still carries the old
hash: an interruption there leaves that file with only part of its five
re-chunking writes applied, so they are not committed atomically as one
unit. -/
theorem atomicity_counterexample :
    indexStates ⟨true, "m", true⟩ (fun s => s) (fun _ _ => some [(1:ℚ)])
        [("a.md", ⟨"abcdefghijklmnopqrstu", "abcdefghijklmnopqrstu", 21⟩)]
        ⟨[⟨"a.md:1-1", "a.md", "oldtext", 1, 1, some [(9:ℚ)], "hOld"⟩],
         [⟨"a.md", "hOld", 7⟩], [⟨"a.md:1-1", "oldtext"⟩], []⟩ =
      [⟨[⟨"a.md:1-1", "a.md", "oldtext", 1, 1, some [(9:ℚ)], "hOld"⟩],
        [⟨"a.md", "hOld", 7⟩], [⟨"a.md:1-1", "oldtext"⟩], []⟩,
       ⟨[], [⟨"a.md", "hOld", 7⟩], [], []⟩,
       ⟨[], [⟨"a.md", "hOld", 7⟩], [],
        [⟨"abcdefghijklmnopqrstu", "m", [(1:ℚ)]⟩]⟩,
       ⟨[⟨"a.md:1-1", "a.md", "abcdefghijklmnopqrstu", 1, 1, some [(1:ℚ)],
          "abcdefghijklmnopqrstu"⟩],
        [⟨"a.md", "abcdefghijklmnopqrstu", 21⟩],
        [⟨"a.md:1-1", "abcdefghijklmnopqrstu"⟩],
        [⟨"abcdefghijklmnopqrstu", "m", [(1:ℚ)]⟩]⟩] := by
  decide

/-- C8 (amended): a single file's re-chunking writes span two atomic
transactions — one upfront cleanup transaction deleting the old rows of
all changed and deleted paths, then one per-file transaction inserting the
new chunk rows, FTS entries, and the file record (with the embedding-cache
writes committed between them).  Consequently an interruption can leave a
changed file with its old rows deleted and its new rows absent, but never
with a mixture: at every transaction boundary of the pass the file's chunk
rows are its old set, empty, or exactly its new set, and the last boundary
state is the final store. -/
theorem atomicity_two_transactions_amended
    (cfg : EngineConfig) (textHash : String → String) (svc : Service)
    (disk : List (String × DiskFile)) (st : Store) (p : String) (f : DiskFile)
    (hdisk : (disk.map Prod.fst).Nodup)
    (hp : p ∈ (diffFiles st disk).1)
    (hf : lookupDisk disk p = some f)
    (hnodupids : ((chunkFile textHash f.content p).map (·.id)).Nodup)
    (hq : ∀ q ∈ (diffFiles st disk).1, q ≠ p → ∀ pfq ∈ disk, pfq.1 = q →
      ∀ ch ∈ chunkFile textHash f.content p, ∀ ch' ∈ chunkFile textHash pfq.2.content q,
        ch.id ≠ ch'.id) :
    ((indexStates cfg textHash svc disk st).getLast? =
      some ((_indexInner cfg textHash svc disk st).1)) ∧
    ∀ s ∈ indexStates cfg textHash svc disk st,
      s.chunks.filter (fun c => c.path == p) = st.chunks.filter (fun c => c.path == p) ∨
      s.chunks.filter (fun c => c.path == p) = [] ∨
      ∃ embs, s.chunks.filter (fun c => c.path == p) =
        ((chunkFile textHash f.content p).zip embs).map fun ce => mkChunkRow ce.1 ce.2 := by
  refine ⟨indexStates_last cfg textHash svc disk st, ?_⟩
  have hde : ¬(disk.isEmpty = true) := by
    cases disk with
    | nil => exact absurd hf (by simp [lookupDisk])
    | cons a l => simp
  have hdi : ¬((diffFiles st disk).1.isEmpty = true ∧ (diffFiles st disk).2.isEmpty = true) := by
    rintro ⟨h1, -⟩
    rw [List.isEmpty_iff] at h1
    rw [h1] at hp
    exact absurd hp (List.not_mem_nil p)
  have h1 : indexStates cfg textHash svc disk st =
      st :: cleanupTxn cfg st (diffFiles st disk).1 (diffFiles st disk).2 ::
        ((diffFiles st disk).1.foldl (fileStatesStep cfg textHash svc disk)
          (cleanupTxn cfg st (diffFiles st disk).1 (diffFiles st disk).2, [])).2 := by
    rw [indexStates, if_neg hde]
    exact if_neg hdi
  rw [h1]
  intro s hs
  have hclean : (cleanupTxn cfg st (diffFiles st disk).1
      (diffFiles st disk).2).chunks.filter (fun c => c.path == p) = [] := by
    rw [cleanupTxn_chunks]
    exact foldl_deleteForPath_chunks_mem cfg _ st p (List.mem_append_left _ hp)
  rcases List.mem_cons.mp hs with rfl | hs
  · exact Or.inl rfl
  rcases List.mem_cons.mp hs with rfl | hs
  · exact Or.inr (Or.inl hclean)
  · have := (fileStates_no_mix cfg textHash svc disk p f hf hnodupids
      (diffFiles st disk).1
      (cleanupTxn cfg st (diffFiles st disk).1 (diffFiles st disk).2) []
      (diffFiles_changed_nodup st disk hdisk) hq (Or.inl hclean)
      (fun _ => hclean)).2 s hs
    rcases this with hmem | hInv
    · exact absurd hmem (List.not_mem_nil s)
    · rcases hInv with hInv | hInv
      · exact Or.inr (Or.inl hInv)
      · exact Or.inr (Or.inr hInv)

/-- Witness for the amended C8 at the counterexample's input: the
post-cleanup boundary state has no `a.md` chunk rows (the "empty" arm of
the no-mix disjunction). -/
theorem atomicity_two_transactions_amended_witness :
    (⟨[], [⟨"a.md", "hOld", 7⟩], [], []⟩ : Store).chunks.filter
        (fun c => c.path == "a.md") =
      (⟨[⟨"a.md:1-1", "a.md", "oldtext", 1, 1, some [(9:ℚ)], "hOld"⟩],
        [⟨"a.md", "hOld", 7⟩], [⟨"a.md:1-1", "oldtext"⟩], []⟩ : Store).chunks.filter
        (fun c => c.path == "a.md") ∨
    (⟨[], [⟨"a.md", "hOld", 7⟩], [], []⟩ : Store).chunks.filter
        (fun c => c.path == "a.md") = [] ∨
    ∃ embs, (⟨[], [⟨"a.md", "hOld", 7⟩], [], []⟩ : Store).chunks.filter
        (fun c => c.path == "a.md") =
      ((chunkFile (fun s => s) "abcdefghijklmnopqrstu" "a.md").zip embs).map
        fun ce => mkChunkRow ce.1 ce.2 :=
  (atomicity_two_transactions_amended ⟨true, "m", true⟩ (fun s => s)
    (fun _ _ => some [(1:ℚ)])
    [("a.md", ⟨"abcdefghijklmnopqrstu", "abcdefghijklmnopqrstu", 21⟩)]
    ⟨[⟨"a.md:1-1", "a.md", "oldtext", 1, 1, some [(9:ℚ)], "hOld"⟩],
     [⟨"a.md", "hOld", 7⟩], [⟨"a.md:1-1", "oldtext"⟩], []⟩
    "a.md" ⟨"abcdefghijklmnopqrstu", "abcdefghijklmnopqrstu", 21⟩
    (by decide) (by decide) (by decide) (by decide) (by decide)).2
    ⟨[], [⟨"a.md", "hOld", 7⟩], [], []⟩ (by decide)

end Claw

